import Mathlib

/-
Verification of the circuit-graph core of the sunscreen_circuit crate
(src/sunscreen_circuit/src/lib.rs), as a shallow embedding.

The graph type of the source is petgraph StableGraph<NodeInfo, EdgeInfo>.
It is modelled as a slot arena of optional node payloads together with a
LIFO free list of vacant slots (exactly petgraph StableGraph vacancy
reuse) and an edge list kept newest-first (petgraph iterates the edges of
a node most-recently-added first).  Rust panics are modelled by Option:
a panicking execution returns none.
-/

set_option maxHeartbeats 1000000

namespace Sunscreen

/-- Scheme tag carried by a circuit (lib.rs, SchemeType). -/
inductive SchemeType
  | Bfv
  | Ckks
  | Tfhe
deriving DecidableEq

/-- Modelled from the spec: the opaque constant payload of a Literal node.
The source module literal.rs is not under src/; the spec treats literal
values as opaque "integer or floating-point" constants, and the in-repo
tests only use 64-bit signed and unsigned integers. -/
inductive OuterLiteral
  | u64 (v : Nat)
  | i64 (v : Int)
deriving DecidableEq, Inhabited

/-- Modelled from the spec: the closed operation set of spec section 3.
The source module operation.rs is not under src/; the variants and their
arities are exactly those the spec lists and lib.rs uses. -/
inductive Operation
  | InputCiphertext (id : Nat)
  | Literal (value : OuterLiteral)
  | Negate
  | OutputCiphertext
  | Relinearize
  | Add
  | Sub
  | Multiply
  | ShiftLeft
  | ShiftRight
deriving DecidableEq, Inhabited

/-- Node payload (lib.rs, NodeInfo). -/
structure NodeInfo where
  operation : Operation
deriving DecidableEq, Inhabited

/-- Edge payload: the operand role of the source node (lib.rs, EdgeInfo). -/
inductive EdgeInfo
  | LeftOperand
  | RightOperand
  | UnaryOperand
deriving DecidableEq

/-- petgraph Direction. -/
inductive Direction
  | Incoming
  | Outgoing
deriving DecidableEq

/-- Model of petgraph StableGraph<NodeInfo, EdgeInfo> (lib.rs, IRGraph):
a slot arena of nodes (a removed slot holds none and goes on the LIFO
free list, which add_node pops first), plus the edge list newest-first. -/
structure IRGraph where
  nodes : List (Option NodeInfo)
  free : List Nat
  edges : List (Nat × Nat × EdgeInfo)
deriving DecidableEq

/-- StableGraph::contains_node. -/
def containsNode (g : IRGraph) (i : Nat) : Bool := (g.nodes.getD i none).isSome

/-- StableGraph::node_identifiers, in ascending index order, occupied slots only. -/
def nodeIdentifiers (g : IRGraph) : List Nat :=
  (List.range g.nodes.length).filter (fun i => containsNode g i)

/-- StableGraph::node_count. -/
def nodeCount (g : IRGraph) : Nat := (nodeIdentifiers g).length

/-- StableGraph::neighbors_directed: Incoming gives the sources of edges
into x, Outgoing the targets of edges out of x; iteration order is
newest-edge first, matching the edge list order. -/
def neighborsDirected (g : IRGraph) (x : Nat) (d : Direction) : List Nat :=
  match d with
  | Direction.Incoming => (g.edges.filter (fun e => e.2.1 == x)).map (fun e => e.1)
  | Direction.Outgoing => (g.edges.filter (fun e => e.1 == x)).map (fun e => e.2.1)

/-- Incoming neighbors (dependencies). -/
def nbrsIn (g : IRGraph) (x : Nat) : List Nat := neighborsDirected g x Direction.Incoming

/-- Outgoing neighbors (dependents). -/
def nbrsOut (g : IRGraph) (x : Nat) : List Nat := neighborsDirected g x Direction.Outgoing

/-- StableGraph::add_node: reuse the most recently freed slot, else append. -/
def addNode (g : IRGraph) (w : NodeInfo) : IRGraph × Nat :=
  match g.free with
  | i :: rest => ({ g with nodes := g.nodes.set i (some w), free := rest }, i)
  | [] => ({ g with nodes := g.nodes ++ [some w] }, g.nodes.length)

/-- Whether an edge a -> b is present. -/
def hasEdge (g : IRGraph) (a b : Nat) : Bool :=
  g.edges.any (fun e => e.1 == a && e.2.1 == b)

/-- StableGraph::update_edge: update the weight of the edge a -> b if one
exists, otherwise add a new edge (newest-first).  petgraph panics when an
endpoint is not a live node: modelled as none. -/
def updateEdge (g : IRGraph) (a b : Nat) (w : EdgeInfo) : Option IRGraph :=
  if containsNode g a && containsNode g b then
    some { g with edges :=
      (if hasEdge g a b then
        g.edges.map (fun e => if e.1 == a && e.2.1 == b then (a, b, w) else e)
      else (a, b, w) :: g.edges) }
  else none

/-- StableGraph::find_edge. -/
def findEdge (g : IRGraph) (a b : Nat) : Option (Nat × Nat × EdgeInfo) :=
  g.edges.find? (fun e => e.1 == a && e.2.1 == b)

/-- Remove the first edge a -> b from an edge list. -/
def removeFirstEdge : List (Nat × Nat × EdgeInfo) → Nat → Nat → List (Nat × Nat × EdgeInfo)
  | [], _, _ => []
  | e :: rest, a, b =>
    if e.1 == a && e.2.1 == b then rest else e :: removeFirstEdge rest a b

/-- StableGraph::remove_edge of the edge found by find_edge (x, y). -/
def removeEdgeAB (g : IRGraph) (a b : Nat) : IRGraph :=
  { g with edges := removeFirstEdge g.edges a b }

/-- StableGraph::remove_node: vacate the slot, push it on the free list,
drop all incident edges.  Removing a vacant slot changes nothing. -/
def removeNode (g : IRGraph) (i : Nat) : IRGraph :=
  if containsNode g i then
    { nodes := g.nodes.set i none,
      free := i :: g.free,
      edges := g.edges.filter (fun e => !(e.1 == i || e.2.1 == i)) }
  else g

/-- The intermediate representation of a circuit (lib.rs, Circuit). -/
structure Circuit where
  scheme : SchemeType
  graph : IRGraph
deriving DecidableEq

/-- Circuit::new. -/
def Circuit.new (s : SchemeType) : Circuit := ⟨s, ⟨[], [], []⟩⟩

/-- Circuit::append_2_input_node: one fresh node plus a LeftOperand edge
from x and a RightOperand edge from y, wired with update_edge. -/
def Circuit.append_2_input_node (c : Circuit) (operation : Operation) (x y : Nat) :
    Option (Circuit × Nat) :=
  let p := addNode c.graph ⟨operation⟩
  (updateEdge p.1 x p.2 EdgeInfo.LeftOperand).bind
    (fun g2 => (updateEdge g2 y p.2 EdgeInfo.RightOperand).map
      (fun g3 => (⟨c.scheme, g3⟩, p.2)))

/-- Circuit::append_1_input_node. -/
def Circuit.append_1_input_node (c : Circuit) (operation : Operation) (x : Nat) :
    Option (Circuit × Nat) :=
  let p := addNode c.graph ⟨operation⟩
  (updateEdge p.1 x p.2 EdgeInfo.UnaryOperand).map
    (fun g2 => (⟨c.scheme, g2⟩, p.2))

/-- Circuit::append_0_input_node. -/
def Circuit.append_0_input_node (c : Circuit) (operation : Operation) : Circuit × Nat :=
  let p := addNode c.graph ⟨operation⟩
  (⟨c.scheme, p.1⟩, p.2)

/-- Circuit::append_negate. -/
def Circuit.append_negate (c : Circuit) (x : Nat) : Option (Circuit × Nat) :=
  c.append_1_input_node Operation.Negate x

/-- Circuit::append_multiply. -/
def Circuit.append_multiply (c : Circuit) (x y : Nat) : Option (Circuit × Nat) :=
  c.append_2_input_node Operation.Multiply x y

/-- Circuit::append_add. -/
def Circuit.append_add (c : Circuit) (x y : Nat) : Option (Circuit × Nat) :=
  c.append_2_input_node Operation.Add x y

/-- Circuit::append_sub. -/
def Circuit.append_sub (c : Circuit) (x y : Nat) : Option (Circuit × Nat) :=
  c.append_2_input_node Operation.Sub x y

/-- Circuit::append_input_ciphertext. -/
def Circuit.append_input_ciphertext (c : Circuit) (id : Nat) : Circuit × Nat :=
  c.append_0_input_node (Operation.InputCiphertext id)

/-- Circuit::append_input_literal. -/
def Circuit.append_input_literal (c : Circuit) (value : OuterLiteral) : Circuit × Nat :=
  c.append_0_input_node (Operation.Literal value)

/-- Circuit::append_output_ciphertext. -/
def Circuit.append_output_ciphertext (c : Circuit) (x : Nat) : Option (Circuit × Nat) :=
  c.append_1_input_node Operation.OutputCiphertext x

/-- Circuit::append_relinearize. -/
def Circuit.append_relinearize (c : Circuit) (x : Nat) : Option (Circuit × Nat) :=
  c.append_1_input_node Operation.Relinearize x

/-- Circuit::append_rotate_left. -/
def Circuit.append_rotate_left (c : Circuit) (x y : Nat) : Option (Circuit × Nat) :=
  c.append_2_input_node Operation.ShiftLeft x y

/-- Circuit::append_rotate_right. -/
def Circuit.append_rotate_right (c : Circuit) (x y : Nat) : Option (Circuit × Nat) :=
  c.append_2_input_node Operation.ShiftRight x y

/-- Circuit::remove_node. -/
def Circuit.remove_node (c : Circuit) (id : Nat) : Circuit :=
  ⟨c.scheme, removeNode c.graph id⟩

/-- Circuit::get_outputs: node indices whose operation is OutputCiphertext,
in table order. -/
def Circuit.get_outputs (c : Circuit) : List Nat :=
  (nodeIdentifiers c.graph).filter
    (fun i => (c.graph.nodes.getD i none) == some ⟨Operation.OutputCiphertext⟩)

/-- TransformNodeIndex (lib.rs): a live node handle or a deferred
reference to a transform earlier in the same batch. -/
inductive TransformNodeIndex
  | NodeIndex (x : Nat)
  | DeferredIndex (x : Nat)
deriving DecidableEq

/-- IRTransform (lib.rs). -/
inductive IRTransform
  | AppendAdd (x y : TransformNodeIndex)
  | AppendMultiply (x y : TransformNodeIndex)
  | AppendInputCiphertext (id : Nat)
  | AppendOutputCiphertext (x : TransformNodeIndex)
  | AppendRelinearize (x : TransformNodeIndex)
  | AppendSub (x y : TransformNodeIndex)
  | RemoveNode (x : TransformNodeIndex)
  | AppendNegate (x : TransformNodeIndex)
  | RemoveEdge (x y : TransformNodeIndex)
  | AddEdge (x y : TransformNodeIndex) (info : EdgeInfo)
deriving DecidableEq

/-- The TransformNodeIndex operands of a transform, in resolution order. -/
def IRTransform.operands : IRTransform → List TransformNodeIndex
  | IRTransform.AppendAdd x y => [x, y]
  | IRTransform.AppendMultiply x y => [x, y]
  | IRTransform.AppendInputCiphertext _ => []
  | IRTransform.AppendOutputCiphertext x => [x]
  | IRTransform.AppendRelinearize x => [x]
  | IRTransform.AppendSub x y => [x, y]
  | IRTransform.RemoveNode x => [x]
  | IRTransform.AppendNegate x => [x]
  | IRTransform.RemoveEdge x y => [x, y]
  | IRTransform.AddEdge x y _ => [x, y]

/-- TransformList (lib.rs): the transform batch plus the parallel record
of the node handle each applied transform produced (none for removals and
edge edits). -/
structure TransformList where
  transforms : List IRTransform
  inserted_node_ids : List (Option Nat)
deriving DecidableEq

/-- TransformList::new. -/
def TransformList.new : TransformList := ⟨[], []⟩

/-- TransformList::push: append and return the DeferredIndex of the
pushed transform. -/
def TransformList.push (tl : TransformList) (t : IRTransform) : TransformList × Nat :=
  (⟨tl.transforms ++ [t], tl.inserted_node_ids⟩, tl.transforms.length)

/-- TransformList::materialize_index against the current record of
produced handles: a real handle passes through; a DeferredIndex reads the
recorded entry, and panics (none) if the index is out of range or the
recorded entry is none. -/
def materializeIndex (ids : List (Option Nat)) : TransformNodeIndex → Option Nat
  | TransformNodeIndex.NodeIndex x => some x
  | TransformNodeIndex.DeferredIndex x => ids.getD x none

/-- One iteration of TransformList::apply: resolve the operands of one
transform against the handles recorded so far, perform the edit, and
report the handle it produced (none for removals and edge edits). -/
def applyOne (ids : List (Option Nat)) (t : IRTransform) (c : Circuit) :
    Option (Option Nat × Circuit) :=
  match t with
  | IRTransform.AppendAdd x y => do
    let hx ← materializeIndex ids x
    let hy ← materializeIndex ids y
    let p ← c.append_add hx hy
    some (some p.2, p.1)
  | IRTransform.AppendMultiply x y => do
    let hx ← materializeIndex ids x
    let hy ← materializeIndex ids y
    let p ← c.append_multiply hx hy
    some (some p.2, p.1)
  | IRTransform.AppendInputCiphertext id =>
    let p := c.append_input_ciphertext id
    some (some p.2, p.1)
  | IRTransform.AppendOutputCiphertext x => do
    let hx ← materializeIndex ids x
    let p ← c.append_output_ciphertext hx
    some (some p.2, p.1)
  | IRTransform.AppendRelinearize x => do
    let hx ← materializeIndex ids x
    let p ← c.append_relinearize hx
    some (some p.2, p.1)
  | IRTransform.AppendSub x y => do
    let hx ← materializeIndex ids x
    let hy ← materializeIndex ids y
    let p ← c.append_sub hx hy
    some (some p.2, p.1)
  | IRTransform.RemoveNode x => do
    let hx ← materializeIndex ids x
    some (none, c.remove_node hx)
  | IRTransform.AppendNegate x => do
    let hx ← materializeIndex ids x
    let p ← c.append_negate hx
    some (some p.2, p.1)
  | IRTransform.RemoveEdge x y => do
    let hx ← materializeIndex ids x
    let hy ← materializeIndex ids y
    let _ ← findEdge c.graph hx hy
    some (none, ⟨c.scheme, removeEdgeAB c.graph hx hy⟩)
  | IRTransform.AddEdge x y info => do
    let hx ← materializeIndex ids x
    let hy ← materializeIndex ids y
    let g ← updateEdge c.graph hx hy info
    some (none, ⟨c.scheme, g⟩)

/-- The loop of TransformList::apply: process the batch in order,
growing the record of produced handles one entry per transform. -/
def applyGo : List IRTransform → List (Option Nat) → Circuit →
    Option (List (Option Nat) × Circuit)
  | [], ids, c => some (ids, c)
  | t :: rest, ids, c =>
    match applyOne ids t c with
    | none => none
    | some p => applyGo rest (ids ++ [p.1]) p.2

/-- TransformList::apply: iterate the batch in push order against the
existing record of produced handles (not cleared, as in the source). -/
def TransformList.apply (tl : TransformList) (c : Circuit) :
    Option (TransformList × Circuit) :=
  (applyGo tl.transforms tl.inserted_node_ids c).map
    (fun p => (⟨tl.transforms, p.1⟩, p.2))

/-- node_ready closure of Circuit::traverse: every previous-direction
neighbor already visited. -/
def nodeReady (g : IRGraph) (visited : List Nat) (prevDir : Direction) (i : Nat) : Bool :=
  (neighborsDirected g i prevDir).all (fun m => visited.contains m)

/-- One ready/push loop of Circuit::traverse: walk the candidate list,
and push every candidate that is not yet in the ready set and passes the
check onto both the ready set and the stack (Vec push = cons here, since
the stack head is the next node popped). -/
def pushList (check : Nat → Bool) : List Nat → List Nat → List Nat → List Nat × List Nat
  | [], r, s => (r, s)
  | i :: rest, r, s =>
    if r.contains i then pushList check rest r s
    else if check i then pushList check rest (i :: r) (i :: s)
    else pushList check rest r s

/-- prev_direction of Circuit::traverse. -/
def prevDirection (forward : Bool) : Direction :=
  if forward then Direction.Incoming else Direction.Outgoing

/-- next_direction of Circuit::traverse. -/
def nextDirection (forward : Bool) : Direction :=
  if forward then Direction.Outgoing else Direction.Incoming

/-- The nodes with no previous-direction neighbor, in table order
(the initial ready set of Circuit::traverse, re-scanned after each step). -/
def sourcesOf (g : IRGraph) (forward : Bool) : List Nat :=
  (nodeIdentifiers g).filter
    (fun x => (neighborsDirected g x (prevDirection forward)).isEmpty)

/-- The ready-set updates after one visit of Circuit::traverse: if the
visited node n still exists, push its ready next-direction neighbors;
then push the ready nodes of the pre-edit snapshot nextNodes; finally
push every current node with no previous-direction neighbor that is not
yet in the ready set (the source applies no readiness check there). -/
def stepLists (forward : Bool) (c1 : Circuit) (visited1 nextNodes : List Nat)
    (n : Nat) (ready rest : List Nat) : List Nat × List Nat :=
  let check := nodeReady c1.graph visited1 (prevDirection forward)
  let rs1 :=
    if containsNode c1.graph n then
      pushList check (neighborsDirected c1.graph n (nextDirection forward)) ready rest
    else (ready, rest)
  let rs2 := pushList check nextNodes rs1.1 rs1.2
  pushList (fun _ => true) (sourcesOf c1.graph forward) rs2.1 rs2.2

/-- The while-let loop of Circuit::traverse.  The visited list records, in
order, every node passed to the callback (the source keeps visited as a
set inserted at the same moment; the list here doubles as that set).
Rust's potentially diverging loop is run on fuel: none means the fuel ran
out or a transform batch panicked. -/
def traverseGo (cb : Circuit → Nat → TransformList) (forward : Bool) :
    Nat → Circuit → List Nat → List Nat → List Nat → Option (Circuit × List Nat)
  | _, c, _, visited, [] => some (c, visited)
  | 0, _, _, _, _ :: _ => none
  | fuel + 1, c, ready, visited, n :: rest =>
    ((cb c n).apply c).bind (fun q =>
      let rs := stepLists forward q.2 (visited ++ [n])
        (neighborsDirected c.graph n (nextDirection forward)) n ready rest
      traverseGo cb forward fuel q.2 rs.1 (visited ++ [n]) rs.2)

/-- Circuit::traverse: seed the ready set with the nodes that have no
previous-direction neighbor (the stack pops the highest-index seed first,
as Vec::pop does). -/
def Circuit.traverse (c : Circuit) (forward : Bool)
    (cb : Circuit → Nat → TransformList) (fuel : Nat) : Option (Circuit × List Nat) :=
  let init := sourcesOf c.graph forward
  traverseGo cb forward fuel c init [] init.reverse

/-- Circuit::forward_traverse. -/
def Circuit.forward_traverse (c : Circuit) (cb : Circuit → Nat → TransformList)
    (fuel : Nat) : Option (Circuit × List Nat) :=
  c.traverse true cb fuel

/-- Circuit::reverse_traverse. -/
def Circuit.reverse_traverse (c : Circuit) (cb : Circuit → Nat → TransformList)
    (fuel : Nat) : Option (Circuit × List Nat) :=
  c.traverse false cb fuel

/-- A compacted graph: petgraph Graph<NodeInfo, EdgeInfo>, the image of
Graph::from(StableGraph) with dense consecutive node indices. -/
structure CGraph where
  nodes : List NodeInfo
  edges : List (Nat × Nat × EdgeInfo)
deriving DecidableEq

/-- The compact index of a stable slot: its rank among occupied slots. -/
def compactRank (g : IRGraph) (i : Nat) : Nat := (nodeIdentifiers g).indexOf i

/-- Graph::from(StableGraph): occupied slots in index order, edges
remapped to compact indices. -/
def compact (g : IRGraph) : CGraph :=
  { nodes := (nodeIdentifiers g).filterMap (fun i => g.nodes.getD i none),
    edges := g.edges.map (fun e => (compactRank g e.1, compactRank g e.2.1, e.2.2)) }

/-- Apply a permutation given as the list of images. -/
def permApply (p : List Nat) (i : Nat) : Nat := p.getD i 0

/-- Whether the candidate node mapping p is an isomorphism between the two
compact graphs that preserves node payloads and edge roles. -/
def isoUnder (a b : CGraph) (p : List Nat) : Bool :=
  (a.nodes.length == b.nodes.length) &&
  (((List.range a.nodes.length).all (fun i =>
      decide (permApply p i < b.nodes.length) &&
      (b.nodes.getD (permApply p i) default == a.nodes.getD i default))) &&
   decide (List.Perm
     (a.edges.map (fun e => (permApply p e.1, permApply p e.2.1, e.2.2)))
     b.edges))

/-- petgraph is_isomorphic_matching with structural node and edge
matchers: there is a payload- and role-preserving node bijection.  The
VF2 search of petgraph is embedded by its meaning, an exhaustive search
over all bijections. -/
def isIsomorphicMatching (a b : CGraph) : Bool :=
  (List.range a.nodes.length).permutations'.any (fun p => isoUnder a b p)

/-- impl PartialEq for Circuit: is_isomorphic_matching on the compacted
graphs with structural node and edge weight matchers.  The scheme field
is not consulted. -/
def circuitEq (x y : Circuit) : Bool :=
  isIsomorphicMatching (compact x.graph) (compact y.graph)

/-- The specification-level statement of graph isomorphism used by the
spec: some node mapping that is bijective on the node tables, preserves
node payloads, and maps the edge multiset (with roles) onto the other
edge multiset.  This is the spec's wording, to be compared with the
source-derived isIsomorphicMatching. -/
def IsIsomorphic (a b : CGraph) : Prop :=
  a.nodes.length = b.nodes.length ∧
  ∃ f : Nat → Nat,
    (∀ i, i < a.nodes.length → f i < b.nodes.length) ∧
    (∀ i j, i < a.nodes.length → j < a.nodes.length → f i = f j → i = j) ∧
    (∀ i, i < a.nodes.length → b.nodes.getD (f i) default = a.nodes.getD i default) ∧
    List.Perm (a.edges.map (fun e => (f e.1, f e.2.1, e.2.2))) b.edges

/-- Every edge of the stable graph joins two live slots (a structural
invariant petgraph maintains for every reachable StableGraph). -/
def EdgesValid (g : IRGraph) : Prop :=
  ∀ e ∈ g.edges, containsNode g e.1 = true ∧ containsNode g e.2.1 = true

instance (g : IRGraph) : Decidable (EdgesValid g) := by
  unfold EdgesValid
  infer_instance

/-- Edge endpoints of a compact graph are in range. -/
def CGraph.wfEdges (a : CGraph) : Prop :=
  ∀ e ∈ a.edges, e.1 < a.nodes.length ∧ e.2.1 < a.nodes.length

/-- Modelled from the spec: the aggregated error type surfaced by
validate (error.rs is not under src/); only the IRError variant matters
here, carrying the whole list of structural errors. -/
structure ValidationError where
  code : Nat
deriving DecidableEq

/-- Modelled from the spec: Error::IRError aggregating the validator's
findings. -/
inductive IRErr
  | IRError (errors : List ValidationError)
deriving DecidableEq

/-- Circuit::validate, with the external validator (validation.rs, a
black box per the spec) passed as a parameter: collect the list of
structural errors; a non-empty list is returned whole as one IRError,
otherwise Ok.  validate takes the circuit by shared reference and never
modifies it; the embedding is a pure function of the circuit. -/
def Circuit.validate (validator : Circuit → List ValidationError) (c : Circuit) :
    Except IRErr Unit :=
  let errors := validator c
  if errors.length > 0 then Except.error (IRErr.IRError errors) else Except.ok ()

/-- The candidates with no unprocessed predecessor (Kahn step of the
toposort used by prune). -/
def noPred (edges : List (Nat × Nat × EdgeInfo)) (remaining : List Nat) (i : Nat) : Bool :=
  !(edges.any (fun e => e.2.1 == i && remaining.contains e.1))

/-- Kahn toposort loop on node ids 0..n-1; none on a cycle (where the
source's toposort(..).unwrap() panics).  petgraph leaves the order among
equally ready nodes unspecified; pruning's output is invariant under that
choice, so the deterministic smallest-first order stands in for it. -/
def toposortGo (edges : List (Nat × Nat × EdgeInfo)) :
    Nat → List Nat → List Nat → Option (List Nat)
  | 0, remaining, acc => if remaining.isEmpty then some acc else none
  | fuel + 1, remaining, acc =>
    if remaining.isEmpty then some acc
    else
      match remaining.find? (noPred edges remaining) with
      | none => none
      | some i => toposortGo edges fuel (remaining.erase i) (acc ++ [i])

/-- petgraph algo::toposort on a graph with n nodes and the given edges. -/
def toposortL (n : Nat) (edges : List (Nat × Nat × EdgeInfo)) : Option (List Nat) :=
  toposortGo edges n (List.range n) []

/-- Direct successors of i. -/
def succList (edges : List (Nat × Nat × EdgeInfo)) (i : Nat) : List Nat :=
  (edges.filter (fun e => e.1 == i)).map (fun e => e.2.1)

/-- One saturation step of reachability. -/
def stepReach (edges : List (Nat × Nat × EdgeInfo)) (s : List Nat) : List Nat :=
  edges.foldl
    (fun acc e => if acc.contains e.1 && !(acc.contains e.2.1) then acc ++ [e.2.1] else acc)
    s

/-- Iterate a function n times. -/
def iterateN (f : List Nat → List Nat) : Nat → List Nat → List Nat
  | 0, a => a
  | k + 1, a => iterateN f k (f a)

/-- The nodes reachable from i in one or more steps: the neighbor set of i
in the transitive closure computed by petgraph
dag_transitive_reduction_closure, embedded by its documented meaning. -/
def closureNbrs (edges : List (Nat × Nat × EdgeInfo)) (n i : Nat) : List Nat :=
  iterateN (stepReach edges) n
    ((succList edges i).foldl (fun acc v => if acc.contains v then acc else acc ++ [v]) [])

/-- The worklist loop of Circuit::prune: pop a position, push every
closure neighbor not yet in the closure set. -/
def pruneLoop (posNbrs : Nat → List Nat) :
    Nat → List Nat → List Nat → Option (List Nat)
  | 0, visit, cs => if visit.isEmpty then some cs else none
  | fuel + 1, visit, cs =>
    match visit with
    | [] => some cs
    | node :: rest =>
      let p := (posNbrs node).foldl
        (fun (p : List Nat × List Nat) v =>
          if p.2.contains v then p else (v :: p.1, v :: p.2))
        (rest, cs)
      pruneLoop posNbrs fuel p.1 p.2

/-- Circuit::prune.  Faithfully including the source's indexing slip: the
keep handles n are used as direct indices into revmap
(revmap[n.index()]), although revmap is indexed by the COMPACT node ids
of Graph::from(self.graph.clone()); a keep handle at or beyond the
compact node count panics (none), and a keep handle above a vacant slot
selects the wrong compact node. -/
def Circuit.prune (c : Circuit) (keep : List Nat) : Option Circuit :=
  let cg := compact c.graph
  let n := cg.nodes.length
  let redges := cg.edges.map (fun e => (e.2.1, e.1, e.2.2))
  match toposortL n redges with
  | none => none
  | some topo =>
    let revmap := (List.range n).map (fun i => topo.indexOf i)
    if keep.all (fun k => k < n) then
      let mapped := keep.map (fun k => revmap.getD k 0)
      let posNbrs := fun p =>
        (closureNbrs redges n (topo.getD p 0)).map (fun v => revmap.getD v 0)
      match pruneLoop posNbrs (keep.length + n + 1) mapped.reverse mapped with
      | none => none
      | some cs =>
        let keepIds := (List.range n).filter (fun id => cs.contains (revmap.getD id 0))
        let rank := fun i => keepIds.indexOf i
        some ⟨c.scheme,
          { nodes := keepIds.map (fun i => some (cg.nodes.getD i default)),
            free := [],
            edges := cg.edges.filterMap (fun e =>
              if cs.contains (revmap.getD e.1 0) && cs.contains (revmap.getD e.2.1 0)
              then some (rank e.1, rank e.2.1, e.2.2) else none) }⟩
    else none

/-- Vacant-slot invariant petgraph maintains for every reachable
StableGraph: every free-list entry is a vacant slot inside the arena. -/
def FreeWf (g : IRGraph) : Prop :=
  ∀ i ∈ g.free, containsNode g i = false ∧ i < g.nodes.length

instance (g : IRGraph) : Decidable (FreeWf g) := by
  unfold FreeWf
  infer_instance

/-- The builder contract for a 2-input append builder: one fresh node
with the given operation, a LeftOperand edge from x and a RightOperand
edge from y, everything else untouched, the fresh handle returned. -/
def Appends2 (f : Circuit → Nat → Nat → Option (Circuit × Nat)) (op : Operation) : Prop :=
  ∀ (c : Circuit) (x y : Nat),
    EdgesValid c.graph → FreeWf c.graph →
    containsNode c.graph x = true → containsNode c.graph y = true → x ≠ y →
    ∃ c2 h,
      f c x y = some (c2, h) ∧
      containsNode c.graph h = false ∧
      containsNode c2.graph h = true ∧
      c2.graph.nodes.getD h none = some ⟨op⟩ ∧
      (∀ j, j ≠ h → c2.graph.nodes.getD j none = c.graph.nodes.getD j none) ∧
      c2.graph.edges =
        (y, h, EdgeInfo.RightOperand) :: (x, h, EdgeInfo.LeftOperand) :: c.graph.edges ∧
      nodeCount c2.graph = nodeCount c.graph + 1 ∧
      c2.scheme = c.scheme

/-- The builder contract for a 1-input append builder: one fresh node, a
single UnaryOperand edge from x, everything else untouched. -/
def Appends1 (f : Circuit → Nat → Option (Circuit × Nat)) (op : Operation) : Prop :=
  ∀ (c : Circuit) (x : Nat),
    EdgesValid c.graph → FreeWf c.graph →
    containsNode c.graph x = true →
    ∃ c2 h,
      f c x = some (c2, h) ∧
      containsNode c.graph h = false ∧
      containsNode c2.graph h = true ∧
      c2.graph.nodes.getD h none = some ⟨op⟩ ∧
      (∀ j, j ≠ h → c2.graph.nodes.getD j none = c.graph.nodes.getD j none) ∧
      c2.graph.edges = (x, h, EdgeInfo.UnaryOperand) :: c.graph.edges ∧
      nodeCount c2.graph = nodeCount c.graph + 1 ∧
      c2.scheme = c.scheme

/-- The builder contract for a 0-input append builder: one fresh node, no
edges wired, everything else untouched. -/
def Appends0 (f : Circuit → Circuit × Nat) (op : Operation) : Prop :=
  ∀ c : Circuit,
    FreeWf c.graph →
    containsNode c.graph (f c).2 = false ∧
    containsNode (f c).1.graph (f c).2 = true ∧
    (f c).1.graph.nodes.getD (f c).2 none = some ⟨op⟩ ∧
    (∀ j, j ≠ (f c).2 → (f c).1.graph.nodes.getD j none = c.graph.nodes.getD j none) ∧
    (f c).1.graph.edges = c.graph.edges ∧
    nodeCount (f c).1.graph = nodeCount c.graph + 1 ∧
    (f c).1.scheme = c.scheme

/-- a occurs strictly before b in the list. -/
def Precedes (l : List Nat) (a b : Nat) : Prop :=
  ∃ (i : Nat) (j : Nat), i < j ∧ l[i]? = some a ∧ l[j]? = some b

/-- The circuits built purely by the append family of builders starting
from Circuit::new, respecting the builder contract that operand handles
refer to nodes existing at the time of the call (the class quantified
over by the traversal claims). -/
inductive Built : Circuit → Prop
  | new (s : SchemeType) : Built (Circuit.new s)
  | add (c c2 : Circuit) (x y h : Nat) :
      Built c → containsNode c.graph x = true → containsNode c.graph y = true →
      Circuit.append_add c x y = some (c2, h) → Built c2
  | mul (c c2 : Circuit) (x y h : Nat) :
      Built c → containsNode c.graph x = true → containsNode c.graph y = true →
      Circuit.append_multiply c x y = some (c2, h) → Built c2
  | subB (c c2 : Circuit) (x y h : Nat) :
      Built c → containsNode c.graph x = true → containsNode c.graph y = true →
      Circuit.append_sub c x y = some (c2, h) → Built c2
  | rotl (c c2 : Circuit) (x y h : Nat) :
      Built c → containsNode c.graph x = true → containsNode c.graph y = true →
      Circuit.append_rotate_left c x y = some (c2, h) → Built c2
  | rotr (c c2 : Circuit) (x y h : Nat) :
      Built c → containsNode c.graph x = true → containsNode c.graph y = true →
      Circuit.append_rotate_right c x y = some (c2, h) → Built c2
  | neg (c c2 : Circuit) (x h : Nat) :
      Built c → containsNode c.graph x = true →
      Circuit.append_negate c x = some (c2, h) → Built c2
  | outp (c c2 : Circuit) (x h : Nat) :
      Built c → containsNode c.graph x = true →
      Circuit.append_output_ciphertext c x = some (c2, h) → Built c2
  | relin (c c2 : Circuit) (x h : Nat) :
      Built c → containsNode c.graph x = true →
      Circuit.append_relinearize c x = some (c2, h) → Built c2
  | inCt (c : Circuit) (id : Nat) :
      Built c → Built (Circuit.append_input_ciphertext c id).1
  | inLit (c : Circuit) (v : OuterLiteral) :
      Built c → Built (Circuit.append_input_literal c v).1

/-- Structural shape of append-built circuits: no vacancies, and every
edge points from a lower slot to a strictly higher occupied slot. -/
def BuiltWf (g : IRGraph) : Prop :=
  g.free = [] ∧ (∀ s ∈ g.nodes, Option.isSome s = true) ∧
  (∀ e ∈ g.edges, e.1 < e.2.1 ∧ e.2.1 < g.nodes.length)

/-- The callback class used by the traversal claims: delete the node
being visited whenever the decision function says so, else no edit. -/
def rmCb (d : Nat → Bool) : Circuit → Nat → TransformList :=
  fun _ n =>
    if d n then ⟨[IRTransform.RemoveNode (TransformNodeIndex.NodeIndex n)], []⟩
    else TransformList.new

/-- Relation between the live graph during a removal-only traversal and
the starting graph: same arena size, fewer nodes, fewer edges, every live
edge ascending and joining live slots. -/
structure SubG (g g0 : IRGraph) : Prop where
  len : g.nodes.length = g0.nodes.length
  node_sub : ∀ i, containsNode g i = true → containsNode g0 i = true
  edge_sub : ∀ e ∈ g.edges, e ∈ g0.edges
  edge_lt : ∀ e ∈ g.edges, e.1 < e.2.1
  edge_occ : ∀ e ∈ g.edges, containsNode g e.1 = true ∧ containsNode g e.2.1 = true

/-- Loop invariant of Circuit::traverse (forward direction) for
removal-only callbacks. -/
structure TravInv (g0 : IRGraph) (c : Circuit) (ready visited stack : List Nat) : Prop where
  sub : SubG c.graph g0
  rNodup : ready.Nodup
  vNodup : visited.Nodup
  sNodup : stack.Nodup
  disj : ∀ x ∈ visited, x ∉ stack
  rIff : ∀ x, x ∈ ready ↔ (x ∈ visited ∨ x ∈ stack)
  rBound : ∀ x ∈ ready, containsNode g0 x = true
  sLive : ∀ x ∈ stack, containsNode c.graph x = true
  sReady : ∀ x ∈ stack, ∀ m ∈ nbrsIn c.graph x, m ∈ visited
  vOrder : ∀ j x, visited[j]? = some x → ∀ m ∈ nbrsIn c.graph x, m ∈ visited.take j
  compl : ∀ x, containsNode c.graph x = true →
    (∀ m ∈ nbrsIn c.graph x, m ∈ visited) → x ∈ ready

/-- Extract the circuit of a fallible builder step (the builders on the
concrete example circuits below always succeed). -/
def stepC (p : Option (Circuit × Nat)) : Circuit × Nat :=
  p.getD (Circuit.new SchemeType.Bfv, 0)

/-- input0 at slot 0 of an otherwise empty Bfv circuit (base of the C6
counterexample). -/
def cOneInput : Circuit := ((Circuit.new SchemeType.Bfv).append_input_ciphertext 0).1

/-- input0; input1; add(0,1): handles 0,1,2 in build order. -/
def exA : Circuit :=
  (stepC ((((Circuit.new SchemeType.Bfv).append_input_ciphertext 0).1.append_input_ciphertext
    1).1.append_add 0 1)).1

/-- The same operation and role structure as exA, built with the other
handle numbering: input1; input0; add with Left from input0 (handle 1)
and Right from input1 (handle 0). -/
def exB : Circuit :=
  (stepC ((((Circuit.new SchemeType.Bfv).append_input_ciphertext 1).1.append_input_ciphertext
    0).1.append_add 1 0)).1

/-- exA with the single Add operation tag changed to Sub. -/
def exTag : Circuit :=
  (stepC ((((Circuit.new SchemeType.Bfv).append_input_ciphertext 0).1.append_input_ciphertext
    1).1.append_sub 0 1)).1

/-- exA with the two edge roles swapped: Left from input1, Right from
input0. -/
def exRole : Circuit :=
  (stepC ((((Circuit.new SchemeType.Bfv).append_input_ciphertext 0).1.append_input_ciphertext
    1).1.append_add 1 0)).1

/-- exA rebuilt under the Ckks scheme tag. -/
def exC : Circuit :=
  (stepC ((((Circuit.new SchemeType.Ckks).append_input_ciphertext 0).1.append_input_ciphertext
    1).1.append_add 0 1)).1

/-- Failing input for the prune claims: input0 (slot 0, later removed);
input1 (slot 1); negate(1) (slot 2); input2 (slot 3); then remove slot 0,
leaving a vacancy below the surviving handles. -/
def badC : Circuit :=
  ((stepC (((((Circuit.new SchemeType.Bfv).append_input_ciphertext 0).1.append_input_ciphertext
    1).1.append_negate 1))).1.append_input_ciphertext 2).1.remove_node 0

/-- Failing input for the idempotence claim: input0 (slot 0, later
removed); input1 (slot 1); negate(1) (slot 2); then remove slot 0. -/
def badC7 : Circuit :=
  (stepC (((((Circuit.new SchemeType.Bfv).append_input_ciphertext 0).1.append_input_ciphertext
    1).1.append_negate 1))).1.remove_node 0

/-- The circuit the buggy prune returns on badC: the lone input2 node. -/
def badCPruned : Circuit :=
  ⟨SchemeType.Bfv, ⟨[some ⟨Operation.InputCiphertext 2⟩], [], []⟩⟩

/-- What the buggy first prune returns on badC7 with keep {1}: both
remaining nodes, input1 -> negate. -/
def badC7Pruned : Circuit :=
  ⟨SchemeType.Bfv,
    ⟨[some ⟨Operation.InputCiphertext 1⟩, some ⟨Operation.Negate⟩], [],
      [(0, 1, EdgeInfo.UnaryOperand)]⟩⟩

/-- What pruning badC7Pruned again with the remapped keep {0} returns:
only the input node. -/
def badC7Twice : Circuit :=
  ⟨SchemeType.Bfv, ⟨[some ⟨Operation.InputCiphertext 1⟩], [], []⟩⟩

/-- Witness circuit: input0; input1; add(0,1). -/
def cW : Circuit := exA

theorem contains_lt {g : IRGraph} {i : Nat} (h : containsNode g i = true) :
    i < g.nodes.length := by
  by_contra hlt
  push_neg at hlt
  unfold containsNode at h
  rw [List.getD_eq_getElem?_getD, List.getElem?_eq_none (by omega)] at h
  simp at h

theorem contains_getD {g : IRGraph} {i : Nat} (h : i < g.nodes.length) :
    containsNode g i = (g.nodes.get ⟨i, h⟩).isSome := by
  unfold containsNode
  rw [List.getD_eq_getElem?_getD, List.getElem?_eq_getElem h]
  rfl

/-- Claim C8: remove_node deletes exactly the given node and all of its
incident edges (Incoming and Outgoing), and leaves every other node,
every edge between remaining nodes, every other handle, and the arena
size unchanged (stable-handle semantics, no index compaction). -/
theorem C8_remove_node_frame (c : Circuit) (i : Nat)
    (h : containsNode c.graph i = true) :
    containsNode (c.remove_node i).graph i = false ∧
    (∀ j, j ≠ i →
      (c.remove_node i).graph.nodes.getD j none = c.graph.nodes.getD j none) ∧
    (∀ j, j ≠ i →
      containsNode (c.remove_node i).graph j = containsNode c.graph j) ∧
    ((c.remove_node i).graph.edges =
      c.graph.edges.filter (fun e => !(e.1 == i || e.2.1 == i))) ∧
    (∀ e ∈ c.graph.edges, e.1 ≠ i → e.2.1 ≠ i → e ∈ (c.remove_node i).graph.edges) ∧
    (∀ e ∈ (c.remove_node i).graph.edges, e ∈ c.graph.edges ∧ e.1 ≠ i ∧ e.2.1 ≠ i) ∧
    ((c.remove_node i).graph.nodes.length = c.graph.nodes.length) ∧
    (c.remove_node i).scheme = c.scheme := by
  have hlt : i < c.graph.nodes.length := contains_lt h
  have hrm : (c.remove_node i).graph =
      { nodes := c.graph.nodes.set i none,
        free := i :: c.graph.free,
        edges := c.graph.edges.filter (fun e => !(e.1 == i || e.2.1 == i)) } := by
    show removeNode c.graph i = _
    unfold removeNode
    rw [if_pos h]
  have hgetD : ∀ j, j ≠ i →
      (c.graph.nodes.set i none).getD j none = c.graph.nodes.getD j none := by
    intro j hj
    rw [List.getD_eq_getElem?_getD, List.getD_eq_getElem?_getD,
      List.getElem?_set_ne (by omega)]
  refine ⟨?_, ?_, ?_, ?_, ?_, ?_, ?_, ?_⟩
  · rw [hrm]
    show ((c.graph.nodes.set i none).getD i none).isSome = false
    rw [List.getD_eq_getElem?_getD, List.getElem?_set_self (by simpa using hlt)]
    rfl
  · intro j hj
    rw [hrm]
    exact hgetD j hj
  · intro j hj
    rw [hrm]
    show ((c.graph.nodes.set i none).getD j none).isSome = _
    rw [hgetD j hj]
    rfl
  · rw [hrm]
  · intro e he h1 h2
    rw [hrm]
    simp only [List.mem_filter]
    refine ⟨he, ?_⟩
    simp [h1, h2]
  · intro e he
    rw [hrm] at he
    simp only [List.mem_filter] at he
    refine ⟨he.1, ?_, ?_⟩ <;>
      · intro hx
        rw [hx] at he
        simp at he
  · rw [hrm]
    exact List.length_set c.graph.nodes i none
  · rw [Circuit.remove_node]

/-- Witness for C8 at a concrete input: removing the input1 node of the
witness circuit. -/
theorem C8_remove_node_frame_witness :
    containsNode cW.graph 1 = true ∧
    (containsNode (cW.remove_node 1).graph 1 = false ∧
    (∀ j, j ≠ 1 →
      (cW.remove_node 1).graph.nodes.getD j none = cW.graph.nodes.getD j none) ∧
    (∀ j, j ≠ 1 →
      containsNode (cW.remove_node 1).graph j = containsNode cW.graph j) ∧
    ((cW.remove_node 1).graph.edges =
      cW.graph.edges.filter (fun e => !(e.1 == 1 || e.2.1 == 1))) ∧
    (∀ e ∈ cW.graph.edges, e.1 ≠ 1 → e.2.1 ≠ 1 → e ∈ (cW.remove_node 1).graph.edges) ∧
    (∀ e ∈ (cW.remove_node 1).graph.edges, e ∈ cW.graph.edges ∧ e.1 ≠ 1 ∧ e.2.1 ≠ 1) ∧
    ((cW.remove_node 1).graph.nodes.length = cW.graph.nodes.length) ∧
    (cW.remove_node 1).scheme = cW.scheme) :=
  ⟨by decide, C8_remove_node_frame cW 1 (by decide)⟩

/-- Claim C9: validate returns Ok exactly when the validator's error list
is empty, and otherwise returns the entire list aggregated in a single
IRError; validate is a pure function of the circuit, so the circuit is
unchanged. -/
theorem C9_validate_aggregates (validator : Circuit → List ValidationError)
    (c : Circuit) :
    (Circuit.validate validator c = Except.ok () ↔ validator c = []) ∧
    (validator c ≠ [] →
      Circuit.validate validator c = Except.error (IRErr.IRError (validator c))) ∧
    (∀ e, Circuit.validate validator c = Except.error e →
      e = IRErr.IRError (validator c)) := by
  unfold Circuit.validate
  cases h : validator c with
  | nil => simp
  | cons a l => simp

/-- Witness for C9 at a concrete validator and circuit, exercising both
the error aggregation and the Ok case. -/
theorem C9_validate_aggregates_witness :
    ((fun _ : Circuit => [ValidationError.mk 7]) (Circuit.new SchemeType.Bfv) ≠ [] →
      Circuit.validate (fun _ => [ValidationError.mk 7]) (Circuit.new SchemeType.Bfv) =
        Except.error (IRErr.IRError [ValidationError.mk 7])) ∧
    Circuit.validate (fun _ => [ValidationError.mk 7]) (Circuit.new SchemeType.Bfv) =
      Except.error (IRErr.IRError [ValidationError.mk 7]) :=
  ⟨(C9_validate_aggregates (fun _ => [ValidationError.mk 7])
      (Circuit.new SchemeType.Bfv)).2.1,
   (C9_validate_aggregates (fun _ => [ValidationError.mk 7])
      (Circuit.new SchemeType.Bfv)).2.1 (by simp)⟩

/-- Claim C2, evaluated at the failing input.  badC holds input1 (slot 1),
negate(1) (slot 2), input2 (slot 3), with slot 0 vacant after a removal.
The transitive dependency closure of the keep set {2} over Incoming edges
is {1, 2} (the negate node and its input), yet prune returns the single
unrelated node InputCiphertext 2 with no edges: prune indexes the
toposort revmap with the stale stable handle 2, which after compaction
denotes the input2 node. -/
theorem C2_prune_bug_eval :
    Circuit.prune badC [2] = some badCPruned ∧
    badC.graph.nodes.getD 2 none = some ⟨Operation.Negate⟩ ∧
    badC.graph.nodes.getD 1 none = some ⟨Operation.InputCiphertext 1⟩ ∧
    nbrsIn badC.graph 2 = [1] ∧
    badCPruned.graph.nodes = [some ⟨Operation.InputCiphertext 2⟩] ∧
    badCPruned.graph.edges = [] ∧
    (some ⟨Operation.Negate⟩ ∈ badCPruned.graph.nodes → False) := by
  decide

/-- Claim C7, evaluated at the failing input.  Pruning badC7 (input1 at
slot 1, negate(1) at slot 2, slot 0 vacant) with keep {1} returns the
two-node circuit input1 -> negate; the node corresponding to the kept
handle 1 (operation InputCiphertext 1) sits at handle 0 of that result;
pruning again with the remapped keep {0} returns only the input node,
which is not isomorphic to the first pruned circuit. -/
theorem C7_prune_not_idempotent_eval :
    Circuit.prune badC7 [1] = some badC7Pruned ∧
    badC7.graph.nodes.getD 1 none = some ⟨Operation.InputCiphertext 1⟩ ∧
    badC7Pruned.graph.nodes.getD 0 none = some ⟨Operation.InputCiphertext 1⟩ ∧
    Circuit.prune badC7Pruned [0] = some badC7Twice ∧
    circuitEq badC7Twice badC7Pruned = false ∧
    circuitEq badC7Pruned badC7Twice = false := by
  decide

theorem bool_tf {b : Bool} (h1 : b = true) (h2 : b = false) : False := by
  rw [h1] at h2
  exact Bool.noConfusion h2

theorem bool_not_false {b : Bool} (h : ¬ b = false) : b = true := by
  cases b
  · exact absurd rfl h
  · rfl

theorem nodeCount_congr {g g2 : IRGraph} (h : g.nodes = g2.nodes) :
    nodeCount g = nodeCount g2 := by
  unfold nodeCount nodeIdentifiers containsNode
  rw [h]

theorem filter_flip_count (p q : Nat → Bool) :
    ∀ l : List Nat, l.Nodup → ∀ i ∈ l, q i = true → p i = false →
      (∀ j ∈ l, j ≠ i → q j = p j) →
      (l.filter q).length = (l.filter p).length + 1 := by
  intro l
  induction l with
  | nil => simp
  | cons a t ih =>
    intro hnd i hi hq hp hcong
    rcases List.mem_cons.mp hi with rfl | hit
    · have hnt : i ∉ t := (List.nodup_cons.mp hnd).1
      have hft : t.filter q = t.filter p := by
        apply List.filter_congr
        intro j hj
        exact hcong j (List.mem_cons_of_mem _ hj) (fun hji => hnt (hji ▸ hj))
      simp [List.filter_cons, hq, hp, hft]
    · have hne : a ≠ i := by
        intro hai
        exact (List.nodup_cons.mp hnd).1 (hai ▸ hit)
      have hqa : q a = p a := hcong a (List.mem_cons_self a t) hne
      have ht := ih (List.nodup_cons.mp hnd).2 i hit hq hp
        (fun j hj hji => hcong j (List.mem_cons_of_mem _ hj) hji)
      cases hpa : p a <;> simp [List.filter_cons, hqa, hpa, ht]

theorem getD_append_lt {l : List (Option NodeInfo)} {a : Option NodeInfo} {j : Nat}
    (h : j < l.length) : (l ++ [a]).getD j none = l.getD j none := by
  rw [List.getD_eq_getElem?_getD, List.getD_eq_getElem?_getD,
    List.getElem?_append_left h]

theorem addNode_spec (g : IRGraph) (w : NodeInfo) (hf : FreeWf g) :
    containsNode g (addNode g w).2 = false ∧
    containsNode (addNode g w).1 (addNode g w).2 = true ∧
    (addNode g w).1.nodes.getD (addNode g w).2 none = some w ∧
    (∀ j, j ≠ (addNode g w).2 → (addNode g w).1.nodes.getD j none = g.nodes.getD j none) ∧
    (addNode g w).1.edges = g.edges ∧
    nodeCount (addNode g w).1 = nodeCount g + 1 := by
  unfold addNode
  cases hfr : g.free with
  | cons i rest =>
    have hvac : containsNode g i = false ∧ i < g.nodes.length :=
      hf i (by rw [hfr]; exact List.mem_cons_self i rest)
    have hset : ∀ j, j ≠ i →
        (g.nodes.set i (some w)).getD j none = g.nodes.getD j none := by
      intro j hj
      rw [List.getD_eq_getElem?_getD, List.getD_eq_getElem?_getD,
        List.getElem?_set_ne (by omega)]
    have hsetI : (g.nodes.set i (some w)).getD i none = some w := by
      rw [List.getD_eq_getElem?_getD, List.getElem?_set_self hvac.2]
      rfl
    refine ⟨hvac.1, ?_, hsetI, hset, rfl, ?_⟩
    · show ((g.nodes.set i (some w)).getD i none).isSome = true
      rw [hsetI]
      rfl
    · show nodeCount { g with nodes := g.nodes.set i (some w), free := rest } = _
      unfold nodeCount nodeIdentifiers
      show ((List.range (g.nodes.set i (some w)).length).filter
        (fun j => containsNode { g with nodes := g.nodes.set i (some w), free := rest } j)).length = _
      rw [List.length_set]
      apply filter_flip_count (fun j => containsNode g j) _ _ (List.nodup_range _)
        i (List.mem_range.mpr hvac.2)
      · show ((g.nodes.set i (some w)).getD i none).isSome = true
        rw [hsetI]
        rfl
      · exact hvac.1
      · intro j _ hji
        show ((g.nodes.set i (some w)).getD j none).isSome = _
        rw [hset j hji]
        rfl
  | nil =>
    have hfreshD : g.nodes.getD g.nodes.length none = none := by
      rw [List.getD_eq_getElem?_getD, List.getElem?_eq_none (Nat.le_refl _)]
      rfl
    have hfresh : containsNode g g.nodes.length = false := by
      show (g.nodes.getD g.nodes.length none).isSome = false
      rw [hfreshD]
      rfl
    have hgetN : (g.nodes ++ [some w]).getD g.nodes.length none = some w := by
      rw [List.getD_eq_getElem?_getD, List.getElem?_append_right (Nat.le_refl _)]
      simp
    have hget : ∀ j, j ≠ g.nodes.length →
        (g.nodes ++ [some w]).getD j none = g.nodes.getD j none := by
      intro j hj
      rcases Nat.lt_or_ge j g.nodes.length with hlt | hge
      · exact getD_append_lt hlt
      · have hgt : g.nodes.length < j := by omega
        rw [List.getD_eq_getElem?_getD, List.getD_eq_getElem?_getD,
          List.getElem?_eq_none (by simp; omega), List.getElem?_eq_none (by omega)]
    refine ⟨hfresh, ?_, hgetN, hget, rfl, ?_⟩
    · show ((g.nodes ++ [some w]).getD g.nodes.length none).isSome = true
      rw [hgetN]
      rfl
    · show nodeCount { g with nodes := g.nodes ++ [some w] } = _
      unfold nodeCount nodeIdentifiers
      show ((List.range (g.nodes ++ [some w]).length).filter _).length = _
      rw [List.length_append, List.length_singleton, List.range_succ,
        List.filter_append]
      have h1 : (List.range g.nodes.length).filter
          (fun j => containsNode { g with nodes := g.nodes ++ [some w] } j) =
          (List.range g.nodes.length).filter (fun j => containsNode g j) := by
        apply List.filter_congr
        intro j hj
        show ((g.nodes ++ [some w]).getD j none).isSome = _
        rw [hget j (by have := List.mem_range.mp hj; omega)]
        rfl
      have h2 : ([g.nodes.length]).filter
          (fun j => containsNode { g with nodes := g.nodes ++ [some w] } j) =
          [g.nodes.length] := by
        simp only [List.filter_cons, List.filter_nil]
        have : containsNode { g with nodes := g.nodes ++ [some w] } g.nodes.length = true := by
          show ((g.nodes ++ [some w]).getD g.nodes.length none).isSome = true
          rw [hgetN]
          rfl
        rw [this]
        rfl
      rw [h1, h2, List.length_append]
      rfl

theorem hasEdge_fresh {g : IRGraph} {a h : Nat} (hev : EdgesValid g)
    (hfresh : containsNode g h = false) : hasEdge g a h = false := by
  by_contra hcon
  have hsome : hasEdge g a h = true := bool_not_false hcon
  obtain ⟨e, he, hcond⟩ := List.any_eq_true.mp hsome
  simp only [Bool.and_eq_true, beq_iff_eq] at hcond
  have hocc := (hev e he).2
  rw [hcond.2] at hocc
  exact bool_tf hocc hfresh

theorem updateEdge_new {g : IRGraph} {a b : Nat} {w : EdgeInfo}
    (ha : containsNode g a = true) (hb : containsNode g b = true)
    (hno : hasEdge g a b = false) :
    updateEdge g a b w = some { g with edges := (a, b, w) :: g.edges } := by
  unfold updateEdge
  rw [ha, hb, hno]
  rfl

theorem appends2_spec (op : Operation) :
    Appends2 (fun c x y => Circuit.append_2_input_node c op x y) op := by
  intro c x y hev hfw hx hy hxy
  obtain ⟨hfresh, hcont, hgetH, hgetF, hedges, hcount⟩ := addNode_spec c.graph ⟨op⟩ hfw
  set p := addNode c.graph ⟨op⟩ with hp
  have hxh : x ≠ p.2 := by
    intro he
    rw [he] at hx
    exact bool_tf hx hfresh
  have hyh : y ≠ p.2 := by
    intro he
    rw [he] at hy
    exact bool_tf hy hfresh
  have hcx : containsNode p.1 x = true := by
    show (p.1.nodes.getD x none).isSome = true
    rw [hgetF x hxh]
    exact hx
  have hcy1 : containsNode p.1 y = true := by
    show (p.1.nodes.getD y none).isSome = true
    rw [hgetF y hyh]
    exact hy
  have hev1 : ∀ e ∈ p.1.edges, e.2.1 ≠ p.2 := by
    intro e he
    rw [hedges] at he
    intro hcon
    have hocc := (hev e he).2
    rw [hcon] at hocc
    exact bool_tf hocc hfresh
  have hno1 : hasEdge p.1 x p.2 = false := by
    by_contra hcon
    have hsome : hasEdge p.1 x p.2 = true := bool_not_false hcon
    obtain ⟨e, he, hcond⟩ := List.any_eq_true.mp hsome
    simp only [Bool.and_eq_true, beq_iff_eq] at hcond
    exact hev1 e he hcond.2
  have hu1 : updateEdge p.1 x p.2 EdgeInfo.LeftOperand =
      some { p.1 with edges := (x, p.2, EdgeInfo.LeftOperand) :: p.1.edges } :=
    updateEdge_new hcx hcont hno1
  set g2 : IRGraph := { p.1 with edges := (x, p.2, EdgeInfo.LeftOperand) :: p.1.edges }
    with hg2
  have hcy : containsNode g2 y = true := hcy1
  have hch2 : containsNode g2 p.2 = true := hcont
  have hno2 : hasEdge g2 y p.2 = false := by
    show ((x, p.2, EdgeInfo.LeftOperand) :: p.1.edges).any
      (fun e => e.1 == y && e.2.1 == p.2) = false
    rw [List.any_cons]
    have h1 : ((x, p.2, EdgeInfo.LeftOperand).1 == y &&
        (x, p.2, EdgeInfo.LeftOperand).2.1 == p.2) = false := by
      have hxyb : (x == y) = false := by
        rw [beq_eq_false_iff_ne]
        intro hcon
        exact hxy hcon
      simp [hxyb]
    rw [h1]
    have h2 : p.1.edges.any (fun e => e.1 == y && e.2.1 == p.2) = false := by
      by_contra hcon
      have hsome : p.1.edges.any (fun e => e.1 == y && e.2.1 == p.2) = true :=
        bool_not_false hcon
      obtain ⟨e, he, hcond⟩ := List.any_eq_true.mp hsome
      simp only [Bool.and_eq_true, beq_iff_eq] at hcond
      exact hev1 e he hcond.2
    rw [h2]
    rfl
  have hu2 : updateEdge g2 y p.2 EdgeInfo.RightOperand =
      some { g2 with edges := (y, p.2, EdgeInfo.RightOperand) :: g2.edges } :=
    updateEdge_new hcy hch2 hno2
  refine ⟨⟨c.scheme, { g2 with edges := (y, p.2, EdgeInfo.RightOperand) :: g2.edges }⟩,
    p.2, ?_, hfresh, hcont, hgetH, hgetF, ?_, ?_, rfl⟩
  · show Circuit.append_2_input_node c op x y = _
    simp only [Circuit.append_2_input_node]
    rw [← hp]
    simp only [hu1, Option.some_bind, hu2, Option.map_some']
  · show (y, p.2, EdgeInfo.RightOperand) :: (x, p.2, EdgeInfo.LeftOperand) :: p.1.edges =
      (y, p.2, EdgeInfo.RightOperand) :: (x, p.2, EdgeInfo.LeftOperand) :: c.graph.edges
    rw [hedges]
  · show nodeCount g2 = _
    rw [@nodeCount_congr g2 p.1 rfl]
    exact hcount

theorem appends1_spec (op : Operation) :
    Appends1 (fun c x => Circuit.append_1_input_node c op x) op := by
  intro c x hev hfw hx
  obtain ⟨hfresh, hcont, hgetH, hgetF, hedges, hcount⟩ := addNode_spec c.graph ⟨op⟩ hfw
  set p := addNode c.graph ⟨op⟩ with hp
  have hxh : x ≠ p.2 := by
    intro he
    rw [he] at hx
    exact bool_tf hx hfresh
  have hcx : containsNode p.1 x = true := by
    show (p.1.nodes.getD x none).isSome = true
    rw [hgetF x hxh]
    exact hx
  have hno1 : hasEdge p.1 x p.2 = false := by
    by_contra hcon
    have hsome : hasEdge p.1 x p.2 = true := bool_not_false hcon
    obtain ⟨e, he, hcond⟩ := List.any_eq_true.mp hsome
    rw [hedges] at he
    simp only [Bool.and_eq_true, beq_iff_eq] at hcond
    have hocc := (hev e he).2
    rw [hcond.2] at hocc
    exact bool_tf hocc hfresh
  have hu1 : updateEdge p.1 x p.2 EdgeInfo.UnaryOperand =
      some { p.1 with edges := (x, p.2, EdgeInfo.UnaryOperand) :: p.1.edges } :=
    updateEdge_new hcx hcont hno1
  refine ⟨⟨c.scheme, { p.1 with edges := (x, p.2, EdgeInfo.UnaryOperand) :: p.1.edges }⟩,
    p.2, ?_, hfresh, hcont, hgetH, hgetF, ?_, ?_, rfl⟩
  · show Circuit.append_1_input_node c op x = _
    simp only [Circuit.append_1_input_node]
    rw [← hp]
    simp only [hu1, Option.map_some']
  · show (x, p.2, EdgeInfo.UnaryOperand) :: p.1.edges =
      (x, p.2, EdgeInfo.UnaryOperand) :: c.graph.edges
    rw [hedges]
  · show nodeCount p.1 = _
    exact hcount

theorem appends0_spec (op : Operation) :
    Appends0 (fun c => Circuit.append_0_input_node c op) op := by
  intro c hfw
  obtain ⟨hfresh, hcont, hgetH, hgetF, hedges, hcount⟩ := addNode_spec c.graph ⟨op⟩ hfw
  exact ⟨hfresh, hcont, hgetH, hgetF, hedges, hcount, rfl⟩

/-- Claim C6 counterexample: for x = y the claim fails.  On a circuit
with the single node input0, append_add 0 0 produces the new node 1 with
exactly ONE edge, (0, 1, RightOperand): the second update_edge call finds
the just-added LeftOperand edge 0 -> 1 and overwrites its role, so no
LeftOperand edge from x exists, contradicting the claimed "one
LeftOperand edge from x and one RightOperand edge from y". -/
theorem C6_append_builders_counterexample :
    ∃ p, Circuit.append_add cOneInput 0 0 = some p ∧
      p.1.graph.edges = [(0, 1, EdgeInfo.RightOperand)] ∧
      ((0, 1, EdgeInfo.LeftOperand) ∈ p.1.graph.edges → False) ∧
      containsNode cOneInput.graph 0 = true :=
  ⟨(⟨SchemeType.Bfv,
      ⟨[some ⟨Operation.InputCiphertext 0⟩, some ⟨Operation.Add⟩], [],
        [(0, 1, EdgeInfo.RightOperand)]⟩⟩, 1),
    by decide, by decide, by decide, by decide⟩

/-- Claim C6, amended: each append_* builder adds exactly one fresh node
carrying the matching operation, returns its handle, leaves all other
nodes and all prior edges untouched, and wires exactly the role-tagged
edges claimed — none for 0-input builders, one UnaryOperand edge for
1-input builders, and, PROVIDED x and y are distinct existing handles,
one LeftOperand edge from x plus one RightOperand edge from y for
2-input builders (when x = y the second update_edge overwrites the first
edge's role, leaving a single RightOperand edge from x). -/
theorem C6_append_builders_amended :
    Appends2 Circuit.append_add Operation.Add ∧
    Appends2 Circuit.append_multiply Operation.Multiply ∧
    Appends2 Circuit.append_sub Operation.Sub ∧
    Appends2 Circuit.append_rotate_left Operation.ShiftLeft ∧
    Appends2 Circuit.append_rotate_right Operation.ShiftRight ∧
    Appends1 Circuit.append_negate Operation.Negate ∧
    Appends1 Circuit.append_output_ciphertext Operation.OutputCiphertext ∧
    Appends1 Circuit.append_relinearize Operation.Relinearize ∧
    (∀ id, Appends0 (fun c => Circuit.append_input_ciphertext c id)
      (Operation.InputCiphertext id)) ∧
    (∀ v, Appends0 (fun c => Circuit.append_input_literal c v) (Operation.Literal v)) :=
  ⟨appends2_spec Operation.Add, appends2_spec Operation.Multiply,
   appends2_spec Operation.Sub, appends2_spec Operation.ShiftLeft,
   appends2_spec Operation.ShiftRight, appends1_spec Operation.Negate,
   appends1_spec Operation.OutputCiphertext, appends1_spec Operation.Relinearize,
   fun id => appends0_spec (Operation.InputCiphertext id),
   fun v => appends0_spec (Operation.Literal v)⟩

/-- Witness for the amended C6 at a concrete circuit: appending an add
node over the two distinct inputs of cW. -/
theorem C6_append_builders_amended_witness :
    EdgesValid cW.graph ∧ FreeWf cW.graph ∧
    containsNode cW.graph 0 = true ∧ containsNode cW.graph 1 = true ∧ (0 : Nat) ≠ 1 ∧
    ∃ c2 h,
      Circuit.append_add cW 0 1 = some (c2, h) ∧
      containsNode cW.graph h = false ∧
      containsNode c2.graph h = true ∧
      c2.graph.nodes.getD h none = some ⟨Operation.Add⟩ ∧
      (∀ j, j ≠ h → c2.graph.nodes.getD j none = cW.graph.nodes.getD j none) ∧
      c2.graph.edges =
        (1, h, EdgeInfo.RightOperand) :: (0, h, EdgeInfo.LeftOperand) :: cW.graph.edges ∧
      nodeCount c2.graph = nodeCount cW.graph + 1 ∧
      c2.scheme = cW.scheme :=
  ⟨by decide, by decide, by decide, by decide, by decide,
   C6_append_builders_amended.1 cW 0 1 (by decide) (by decide) (by decide) (by decide)
     (by decide)⟩

theorem applyGo_append (l2 : List IRTransform) :
    ∀ (l1 : List IRTransform) (ids : List (Option Nat)) (c : Circuit),
      applyGo (l1 ++ l2) ids c = (applyGo l1 ids c).bind (fun p => applyGo l2 p.1 p.2) := by
  intro l1
  induction l1 with
  | nil => intro ids c; rfl
  | cons t rest ih =>
    intro ids c
    show applyGo (t :: (rest ++ l2)) ids c = _
    cases h : applyOne ids t c with
    | none => simp [applyGo, h]
    | some p =>
      simp only [applyGo, h]
      exact ih (ids ++ [p.1]) p.2

theorem applyGo_length :
    ∀ (l : List IRTransform) (ids : List (Option Nat)) (c : Circuit) ids2 c2,
      applyGo l ids c = some (ids2, c2) → ids2.length = ids.length + l.length := by
  intro l
  induction l with
  | nil =>
    intro ids c ids2 c2 h
    simp only [applyGo, Option.some.injEq, Prod.mk.injEq] at h
    rw [← h.1]
    simp
  | cons t rest ih =>
    intro ids c ids2 c2 h
    cases happ : applyOne ids t c with
    | none => simp [applyGo, happ] at h
    | some p =>
      simp only [applyGo, happ] at h
      have h2 := ih (ids ++ [p.1]) p.2 ids2 c2 h
      rw [List.length_append] at h2
      simp only [List.length_cons, List.length_nil] at h2 ⊢
      omega

theorem applyOne_bad {ids : List (Option Nat)} {t : IRTransform} {c : Circuit} {j : Nat}
    (hmem : TransformNodeIndex.DeferredIndex j ∈ t.operands)
    (hbad : ids.getD j none = none) : applyOne ids t c = none := by
  have hm : materializeIndex ids (TransformNodeIndex.DeferredIndex j) = none := hbad
  cases t with
  | AppendAdd x y =>
    simp only [IRTransform.operands] at hmem
    rcases List.mem_pair.mp hmem with h | h
    · rw [← h]
      simp [applyOne, hm]
    · rw [← h]
      cases hmx : materializeIndex ids x <;> simp [applyOne, hmx, hm]
  | AppendMultiply x y =>
    simp only [IRTransform.operands] at hmem
    rcases List.mem_pair.mp hmem with h | h
    · rw [← h]
      simp [applyOne, hm]
    · rw [← h]
      cases hmx : materializeIndex ids x <;> simp [applyOne, hmx, hm]
  | AppendInputCiphertext id => simp [IRTransform.operands] at hmem
  | AppendOutputCiphertext x =>
    simp only [IRTransform.operands, List.mem_singleton] at hmem
    rw [← hmem]
    simp [applyOne, hm]
  | AppendRelinearize x =>
    simp only [IRTransform.operands, List.mem_singleton] at hmem
    rw [← hmem]
    simp [applyOne, hm]
  | AppendSub x y =>
    simp only [IRTransform.operands] at hmem
    rcases List.mem_pair.mp hmem with h | h
    · rw [← h]
      simp [applyOne, hm]
    · rw [← h]
      cases hmx : materializeIndex ids x <;> simp [applyOne, hmx, hm]
  | RemoveNode x =>
    simp only [IRTransform.operands, List.mem_singleton] at hmem
    rw [← hmem]
    simp [applyOne, hm]
  | AppendNegate x =>
    simp only [IRTransform.operands, List.mem_singleton] at hmem
    rw [← hmem]
    simp [applyOne, hm]
  | RemoveEdge x y =>
    simp only [IRTransform.operands] at hmem
    rcases List.mem_pair.mp hmem with h | h
    · rw [← h]
      simp [applyOne, hm]
    · rw [← h]
      cases hmx : materializeIndex ids x <;> simp [applyOne, hmx, hm]
  | AddEdge x y info =>
    simp only [IRTransform.operands] at hmem
    rcases List.mem_pair.mp hmem with h | h
    · rw [← h]
      simp [applyOne, hm]
    · rw [← h]
      cases hmx : materializeIndex ids x <;> simp [applyOne, hmx, hm]

theorem apply_fresh_none (ts : List IRTransform) (c : Circuit) (i j : Nat)
    (t : IRTransform) (hts : ts[i]? = some t)
    (hmem : TransformNodeIndex.DeferredIndex j ∈ t.operands)
    (hcond : ∀ ids c0, applyGo (ts.take i) [] c = some (ids, c0) →
      ids.getD j none = none) :
    TransformList.apply ⟨ts, []⟩ c = none := by
  have hi : i < ts.length := by
    by_contra hcon
    rw [List.getElem?_eq_none (by omega)] at hts
    exact Option.noConfusion hts
  have hgo : applyGo ts [] c = none := by
    have hsplit : ts = ts.take i ++ ts.drop i := (List.take_append_drop i ts).symm
    have hdrop : ts.drop i = t :: ts.drop (i + 1) := by
      rw [List.drop_eq_getElem_cons hi]
      have : ts[i] = t := by
        have := List.getElem?_eq_getElem hi
        rw [hts] at this
        exact (Option.some.injEq _ _).mp this.symm
      rw [this]
    rw [hsplit, applyGo_append]
    cases hpre : applyGo (ts.take i) [] c with
    | none => rfl
    | some p =>
      have hbad := hcond p.1 p.2 (by rw [← hpre])
      rw [Option.some_bind, hdrop]
      show (match applyOne p.1 t p.2 with
        | none => none
        | some q => applyGo (ts.drop (i + 1)) (p.1 ++ [q.1]) q.2) = none
      rw [applyOne_bad hmem hbad]
  show (applyGo ts [] c).map _ = none
  rw [hgo]
  rfl

/-- Claim C3: TransformList::apply processes the batch in push order, a
DeferredIndex operand resolves to exactly the handle recorded for that
earlier position of the same batch (resolution only ever sees the record
of the strictly earlier transforms, so it can only look backward), and
apply fails fatally (none, a Rust panic) when a DeferredIndex is at or
beyond the current position (out of range / forward reference) or names
a transform whose recorded result is none (RemoveNode, RemoveEdge,
AddEdge produce no node). -/
theorem C3_apply_resolution :
    (∀ (ts : List IRTransform) (t : IRTransform) (c : Circuit),
      applyGo (ts ++ [t]) [] c =
        (applyGo ts [] c).bind (fun p =>
          (applyOne p.1 t p.2).map (fun q => (p.1 ++ [q.1], q.2)))) ∧
    (∀ (ids : List (Option Nat)) (j h : Nat), ids[j]? = some (some h) →
      materializeIndex ids (TransformNodeIndex.DeferredIndex j) = some h) ∧
    (∀ (ts : List IRTransform) (c : Circuit) (i j : Nat) (t : IRTransform),
      ts[i]? = some t → TransformNodeIndex.DeferredIndex j ∈ t.operands → i ≤ j →
      TransformList.apply ⟨ts, []⟩ c = none) ∧
    (∀ (ts : List IRTransform) (c : Circuit) (i j : Nat) (t : IRTransform)
      (ids : List (Option Nat)) (c0 : Circuit),
      ts[i]? = some t → TransformNodeIndex.DeferredIndex j ∈ t.operands →
      applyGo (ts.take i) [] c = some (ids, c0) → ids[j]? = some none →
      TransformList.apply ⟨ts, []⟩ c = none) := by
  refine ⟨?_, ?_, ?_, ?_⟩
  · intro ts t c
    rw [applyGo_append]
    cases hpre : applyGo ts [] c with
    | none => rfl
    | some p =>
      rw [Option.some_bind, Option.some_bind]
      show applyGo [t] p.1 p.2 = _
      cases happ : applyOne p.1 t p.2 with
      | none => simp [applyGo, happ]
      | some q => simp [applyGo, happ]
  · intro ids j h hj
    show ids.getD j none = some h
    rw [List.getD_eq_getElem?_getD, hj]
    rfl
  · intro ts c i j t hts hmem hij
    apply apply_fresh_none ts c i j t hts hmem
    intro ids c0 hpre
    have hlen : ids.length = i := by
      have := applyGo_length (ts.take i) [] c ids c0 hpre
      rw [this, List.length_take]
      have hi : i < ts.length := by
        by_contra hcon
        rw [List.getElem?_eq_none (by omega)] at hts
        exact Option.noConfusion hts
      simp
      omega
    rw [List.getD_eq_getElem?_getD, List.getElem?_eq_none (by omega)]
    rfl
  · intro ts c i j t ids c0 hts hmem hpre hnone
    apply apply_fresh_none ts c i j t hts hmem
    intro ids2 c02 hpre2
    rw [hpre] at hpre2
    have h2 : (ids, c0) = (ids2, c02) := Option.some.inj hpre2
    have hids : ids = ids2 := congrArg Prod.fst h2
    rw [← hids, List.getD_eq_getElem?_getD, hnone]
    rfl

/-- Witness for C3: a concrete batch whose second transform chains off
the node the first transform produced (resolving backward), a batch with
a forward DeferredIndex (fatal), and a batch chaining off a RemoveNode
(fatal). -/
theorem C3_apply_resolution_witness :
    materializeIndex [some 5] (TransformNodeIndex.DeferredIndex 0) = some 5 ∧
    TransformList.apply
      ⟨[IRTransform.AppendNegate (TransformNodeIndex.DeferredIndex 0)], []⟩
      (Circuit.new SchemeType.Bfv) = none ∧
    TransformList.apply
      ⟨[IRTransform.RemoveNode (TransformNodeIndex.NodeIndex 0),
        IRTransform.AppendNegate (TransformNodeIndex.DeferredIndex 0)], []⟩
      cOneInput = none :=
  ⟨C3_apply_resolution.2.1 [some 5] 0 5 (by decide),
   C3_apply_resolution.2.2.1
     [IRTransform.AppendNegate (TransformNodeIndex.DeferredIndex 0)]
     (Circuit.new SchemeType.Bfv) 0 0
     (IRTransform.AppendNegate (TransformNodeIndex.DeferredIndex 0))
     (by decide) (by decide) (by decide),
   C3_apply_resolution.2.2.2
     [IRTransform.RemoveNode (TransformNodeIndex.NodeIndex 0),
      IRTransform.AppendNegate (TransformNodeIndex.DeferredIndex 0)]
     cOneInput 1 0
     (IRTransform.AppendNegate (TransformNodeIndex.DeferredIndex 0))
     [none] (cOneInput.remove_node 0)
     (by decide) (by decide) (by decide) (by decide)⟩

theorem mem_nodeIdentifiers {g : IRGraph} {i : Nat} :
    i ∈ nodeIdentifiers g ↔ containsNode g i = true := by
  constructor
  · intro h
    exact (List.mem_filter.mp h).2
  · intro h
    exact List.mem_filter.mpr ⟨List.mem_range.mpr (contains_lt h), h⟩

theorem filterMap_all_some {α β : Type} (f : α → Option β) :
    ∀ l : List α, (∀ x ∈ l, (f x).isSome = true) → (l.filterMap f).length = l.length := by
  intro l
  induction l with
  | nil => simp
  | cons a t ih =>
    intro h
    rw [List.filterMap_cons]
    cases hf : f a with
    | none =>
      have hcont := h a (List.mem_cons_self a t)
      rw [hf] at hcont
      simp at hcont
    | some b =>
      simp only [List.length_cons]
      rw [ih (fun x hx => h x (List.mem_cons_of_mem a hx))]

theorem compact_nodes_length (g : IRGraph) :
    (compact g).nodes.length = nodeCount g := by
  show ((nodeIdentifiers g).filterMap (fun i => g.nodes.getD i none)).length = _
  exact filterMap_all_some _ _ (fun i hi => mem_nodeIdentifiers.mp hi)

theorem compactRank_lt {g : IRGraph} {i : Nat} (h : containsNode g i = true) :
    compactRank g i < (compact g).nodes.length := by
  rw [compact_nodes_length]
  exact List.indexOf_lt_length.mpr (mem_nodeIdentifiers.mpr h)

theorem compact_wf (g : IRGraph) (hev : EdgesValid g) : (compact g).wfEdges := by
  intro e he
  obtain ⟨e0, he0, rfl⟩ := List.mem_map.mp he
  exact ⟨compactRank_lt (hev e0 he0).1, compactRank_lt (hev e0 he0).2⟩

theorem iso_bridge (a b : CGraph) (hwa : a.wfEdges) :
    isIsomorphicMatching a b = true ↔ IsIsomorphic a b := by
  constructor
  · intro h
    obtain ⟨p, hp, hcheck⟩ := List.any_eq_true.mp h
    have hperm : List.Perm p (List.range a.nodes.length) := List.mem_permutations'.mp hp
    have hpn : p.Nodup := (hperm.nodup_iff).mpr (List.nodup_range _)
    have hpl : p.length = a.nodes.length := by
      rw [hperm.length_eq, List.length_range]
    simp only [isoUnder, Bool.and_eq_true, beq_iff_eq, List.all_eq_true,
      decide_eq_true_eq] at hcheck
    obtain ⟨hlen, hall, hedge⟩ := hcheck
    refine ⟨hlen, permApply p, ?_, ?_, ?_, hedge⟩
    · intro i hi
      exact (hall i (List.mem_range.mpr hi)).1
    · intro i j hi hj hfij
      have hib : i < p.length := by omega
      have hjb : j < p.length := by omega
      have hgi : permApply p i = p.get ⟨i, hib⟩ := by
        show p.getD i 0 = _
        rw [List.getD_eq_getElem?_getD, List.getElem?_eq_getElem hib]
        rfl
      have hgj : permApply p j = p.get ⟨j, hjb⟩ := by
        show p.getD j 0 = _
        rw [List.getD_eq_getElem?_getD, List.getElem?_eq_getElem hjb]
        rfl
      rw [hgi, hgj] at hfij
      simp only [List.get_eq_getElem] at hfij
      exact (List.Nodup.getElem_inj_iff hpn).mp hfij
    · intro i hi
      exact (hall i (List.mem_range.mpr hi)).2
  · intro h
    obtain ⟨hlen, f, hbound, hinj, hlab, hperm⟩ := h
    have hplen : ((List.range a.nodes.length).map f).length = a.nodes.length := by
      rw [List.length_map, List.length_range]
    have hpsub : (List.range a.nodes.length).map f ⊆ List.range a.nodes.length := by
      intro x hx
      obtain ⟨i, hi, rfl⟩ := List.mem_map.mp hx
      have hb := hbound i (List.mem_range.mp hi)
      rw [← hlen] at hb
      exact List.mem_range.mpr hb
    have hpnd : ((List.range a.nodes.length).map f).Nodup := by
      refine (List.nodup_map_iff_inj_on (List.nodup_range _)).mpr ?_
      intro x hx y hy hxy
      exact hinj x y (List.mem_range.mp hx) (List.mem_range.mp hy) hxy
    have hpperm : List.Perm ((List.range a.nodes.length).map f)
        (List.range a.nodes.length) :=
      List.Subperm.perm_of_length_le (List.subperm_of_subset hpnd hpsub)
        (by rw [hplen, List.length_range])
    have hgetp : ∀ i, i < a.nodes.length →
        permApply ((List.range a.nodes.length).map f) i = f i := by
      intro i hi
      show ((List.range a.nodes.length).map f).getD i 0 = f i
      rw [List.getD_eq_getElem?_getD, List.getElem?_eq_getElem (by omega)]
      show ((List.range a.nodes.length).map f).get ⟨i, by omega⟩ = f i
      simp
    apply List.any_eq_true.mpr
    refine ⟨(List.range a.nodes.length).map f, List.mem_permutations'.mpr hpperm, ?_⟩
    simp only [isoUnder, Bool.and_eq_true, beq_iff_eq, List.all_eq_true,
      decide_eq_true_eq]
    refine ⟨hlen, ?_, ?_⟩
    · intro i hi
      have hilt := List.mem_range.mp hi
      rw [hgetp i hilt]
      exact ⟨hbound i hilt, hlab i hilt⟩
    · have hmap : a.edges.map (fun e =>
            (permApply ((List.range a.nodes.length).map f) e.1,
             permApply ((List.range a.nodes.length).map f) e.2.1, e.2.2)) =
          a.edges.map (fun e => (f e.1, f e.2.1, e.2.2)) := by
        apply List.map_eq_map_iff.mpr
        intro e he
        rw [hgetp e.1 (hwa e he).1, hgetp e.2.1 (hwa e he).2]
      rw [hmap]
      exact hperm

theorem isIsomorphic_refl (a : CGraph) : IsIsomorphic a a := by
  refine ⟨rfl, fun i => i, fun i h => h, fun i j _ _ h => h, fun i _ => rfl, ?_⟩
  have hmap : a.edges.map (fun e => (e.1, e.2.1, e.2.2)) = a.edges := by
    simp
  rw [hmap]

/-- Claim C4: Circuit equality is exactly label-preserving graph
isomorphism of the compacted graphs.  On the concrete circuits: exA and
exB share the same operation and edge-role structure under different
internal handle numbering and compare equal; changing the single Add tag
to Sub (exTag) or swapping the two edge roles (exRole) makes the
comparison fail. -/
theorem C4_eq_iff_isomorphic :
    (∀ c1 c2 : Circuit, EdgesValid c1.graph →
      (circuitEq c1 c2 = true ↔ IsIsomorphic (compact c1.graph) (compact c2.graph))) ∧
    circuitEq exA exB = true ∧
    circuitEq exA exTag = false ∧
    circuitEq exA exRole = false :=
  ⟨fun c1 c2 h => iso_bridge (compact c1.graph) (compact c2.graph) (compact_wf c1.graph h),
   by decide, by decide, by decide⟩

/-- Witness for C4 at concrete circuits. -/
theorem C4_eq_iff_isomorphic_witness :
    EdgesValid exA.graph ∧
    (circuitEq exA exB = true ↔ IsIsomorphic (compact exA.graph) (compact exB.graph)) :=
  ⟨by decide, C4_eq_iff_isomorphic.1 exA exB (by decide)⟩

/-- Claim C10: Circuit equality never consults the SchemeType tag: any
two circuits whose compacted graphs are isomorphic under node- and
edge-label-preserving matching compare equal whatever their scheme
fields; concretely, exA (Bfv) and exC (the same structure under Ckks)
compare equal. -/
theorem C10_eq_ignores_scheme :
    (∀ (s1 s2 : SchemeType) (g1 g2 : IRGraph), EdgesValid g1 →
      IsIsomorphic (compact g1) (compact g2) →
      circuitEq ⟨s1, g1⟩ ⟨s2, g2⟩ = true) ∧
    exA.scheme = SchemeType.Bfv ∧
    exC.scheme = SchemeType.Ckks ∧
    circuitEq exA exC = true := by
  refine ⟨?_, by decide, by decide, by decide⟩
  intro s1 s2 g1 g2 hev hiso
  show isIsomorphicMatching (compact g1) (compact g2) = true
  exact (iso_bridge (compact g1) (compact g2) (compact_wf g1 hev)).mpr hiso

/-- Witness for C10: the same graph under two different schemes compares
equal. -/
theorem C10_eq_ignores_scheme_witness :
    EdgesValid exA.graph ∧
    circuitEq ⟨SchemeType.Bfv, exA.graph⟩ ⟨SchemeType.Tfhe, exA.graph⟩ = true :=
  ⟨by decide,
   C10_eq_ignores_scheme.1 SchemeType.Bfv SchemeType.Tfhe exA.graph exA.graph
     (by decide) (isIsomorphic_refl (compact exA.graph))⟩

theorem pushList_ready_mono (ch : Nat → Bool) :
    ∀ (items r s : List Nat) (x : Nat), x ∈ r → x ∈ (pushList ch items r s).1 := by
  intro items
  induction items with
  | nil => intro r s x hx; exact hx
  | cons i rest ih =>
    intro r s x hx
    cases hir : r.contains i <;> cases hci : ch i <;>
      simp only [pushList, hir, hci, Bool.false_eq_true, if_false, if_true] <;>
      first
        | exact ih r s x hx
        | exact ih (i :: r) (i :: s) x (List.mem_cons_of_mem i hx)

theorem pushList_stack_mono (ch : Nat → Bool) :
    ∀ (items r s : List Nat) (x : Nat), x ∈ s → x ∈ (pushList ch items r s).2 := by
  intro items
  induction items with
  | nil => intro r s x hx; exact hx
  | cons i rest ih =>
    intro r s x hx
    cases hir : r.contains i <;> cases hci : ch i <;>
      simp only [pushList, hir, hci, Bool.false_eq_true, if_false, if_true] <;>
      first
        | exact ih r s x hx
        | exact ih (i :: r) (i :: s) x (List.mem_cons_of_mem i hx)

theorem pushList_ready_src (ch : Nat → Bool) :
    ∀ (items r s : List Nat) (x : Nat), x ∈ (pushList ch items r s).1 →
      x ∈ r ∨ (x ∈ items ∧ ch x = true) := by
  intro items
  induction items with
  | nil => intro r s x hx; exact Or.inl hx
  | cons i rest ih =>
    intro r s x hx
    cases hir : r.contains i <;> cases hci : ch i <;>
      simp only [pushList, hir, hci, Bool.false_eq_true, if_false, if_true] at hx
    case false.false =>
      rcases ih r s x hx with h | h
      · exact Or.inl h
      · exact Or.inr ⟨List.mem_cons_of_mem i h.1, h.2⟩
    case false.true =>
      rcases ih (i :: r) (i :: s) x hx with h | h
      · rcases List.mem_cons.mp h with rfl | h2
        · exact Or.inr ⟨List.mem_cons_self x rest, hci⟩
        · exact Or.inl h2
      · exact Or.inr ⟨List.mem_cons_of_mem i h.1, h.2⟩
    case true.false =>
      rcases ih r s x hx with h | h
      · exact Or.inl h
      · exact Or.inr ⟨List.mem_cons_of_mem i h.1, h.2⟩
    case true.true =>
      rcases ih r s x hx with h | h
      · exact Or.inl h
      · exact Or.inr ⟨List.mem_cons_of_mem i h.1, h.2⟩

theorem pushList_stack_src (ch : Nat → Bool) :
    ∀ (items r s : List Nat) (x : Nat), x ∈ (pushList ch items r s).2 →
      x ∈ s ∨ (x ∈ items ∧ ch x = true) := by
  intro items
  induction items with
  | nil => intro r s x hx; exact Or.inl hx
  | cons i rest ih =>
    intro r s x hx
    cases hir : r.contains i <;> cases hci : ch i <;>
      simp only [pushList, hir, hci, Bool.false_eq_true, if_false, if_true] at hx
    case false.false =>
      rcases ih r s x hx with h | h
      · exact Or.inl h
      · exact Or.inr ⟨List.mem_cons_of_mem i h.1, h.2⟩
    case false.true =>
      rcases ih (i :: r) (i :: s) x hx with h | h
      · rcases List.mem_cons.mp h with rfl | h2
        · exact Or.inr ⟨List.mem_cons_self x rest, hci⟩
        · exact Or.inl h2
      · exact Or.inr ⟨List.mem_cons_of_mem i h.1, h.2⟩
    case true.false =>
      rcases ih r s x hx with h | h
      · exact Or.inl h
      · exact Or.inr ⟨List.mem_cons_of_mem i h.1, h.2⟩
    case true.true =>
      rcases ih r s x hx with h | h
      · exact Or.inl h
      · exact Or.inr ⟨List.mem_cons_of_mem i h.1, h.2⟩

theorem pushList_cover (ch : Nat → Bool) :
    ∀ (items r s : List Nat) (x : Nat), x ∈ items → ch x = true →
      x ∈ (pushList ch items r s).1 := by
  intro items
  induction items with
  | nil => intro r s x hx; simp at hx
  | cons i rest ih =>
    intro r s x hx hcx
    rcases List.mem_cons.mp hx with heq | hxr
    · rw [heq] at hcx ⊢
      cases hir : r.contains i
      · simp only [pushList, hir, hcx, Bool.false_eq_true, if_false, if_true]
        exact pushList_ready_mono ch rest (i :: r) (i :: s) i (List.mem_cons_self i r)
      · simp only [pushList, hir, if_true]
        have hmem : i ∈ r := List.elem_iff.mp hir
        exact pushList_ready_mono ch rest r s i hmem
    · cases hir : r.contains i <;> cases hci : ch i <;>
        simp only [pushList, hir, hci, Bool.false_eq_true, if_false, if_true] <;>
        first
          | exact ih r s x hxr hcx
          | exact ih (i :: r) (i :: s) x hxr hcx

theorem pushList_iff (ch : Nat → Bool) (v : List Nat) :
    ∀ (items r s : List Nat), (∀ y, y ∈ r ↔ y ∈ v ∨ y ∈ s) →
      ∀ y, y ∈ (pushList ch items r s).1 ↔ y ∈ v ∨ y ∈ (pushList ch items r s).2 := by
  intro items
  induction items with
  | nil => intro r s h y; exact h y
  | cons i rest ih =>
    intro r s h y
    cases hir : r.contains i <;> cases hci : ch i <;>
      simp only [pushList, hir, hci, Bool.false_eq_true, if_false, if_true]
    case false.false => exact ih r s h y
    case false.true =>
      apply ih (i :: r) (i :: s)
      intro z
      constructor
      · intro hz
        rcases List.mem_cons.mp hz with rfl | hz2
        · exact Or.inr (List.mem_cons_self z s)
        · rcases (h z).mp hz2 with hv | hs
          · exact Or.inl hv
          · exact Or.inr (List.mem_cons_of_mem i hs)
      · intro hz
        rcases hz with hv | hs
        · exact List.mem_cons_of_mem i ((h z).mpr (Or.inl hv))
        · rcases List.mem_cons.mp hs with rfl | hs2
          · exact List.mem_cons_self z r
          · exact List.mem_cons_of_mem i ((h z).mpr (Or.inr hs2))
    case true.false => exact ih r s h y
    case true.true => exact ih r s h y

theorem pushList_nodup (ch : Nat → Bool) :
    ∀ (items r s : List Nat), r.Nodup → s.Nodup → (∀ y ∈ s, y ∈ r) →
      (pushList ch items r s).1.Nodup ∧ (pushList ch items r s).2.Nodup ∧
        (∀ y ∈ (pushList ch items r s).2, y ∈ (pushList ch items r s).1) := by
  intro items
  induction items with
  | nil => intro r s hr hs hsr; exact ⟨hr, hs, hsr⟩
  | cons i rest ih =>
    intro r s hr hs hsr
    cases hir : r.contains i <;> cases hci : ch i <;>
      simp only [pushList, hir, hci, Bool.false_eq_true, if_false, if_true]
    case false.false => exact ih r s hr hs hsr
    case false.true =>
      have hinr : i ∉ r := by
        intro hcon
        have hct : r.contains i = true := List.elem_iff.mpr hcon
        exact bool_tf hct hir
      have hins : i ∉ s := fun hcon => hinr (hsr i hcon)
      apply ih (i :: r) (i :: s)
      · exact List.nodup_cons.mpr ⟨hinr, hr⟩
      · exact List.nodup_cons.mpr ⟨hins, hs⟩
      · intro y hy
        rcases List.mem_cons.mp hy with rfl | hy2
        · exact List.mem_cons_self y r
        · exact List.mem_cons_of_mem i (hsr y hy2)
    case true.false => exact ih r s hr hs hsr
    case true.true => exact ih r s hr hs hsr

theorem pushList_len (ch : Nat → Bool) :
    ∀ (items r s : List Nat),
      (pushList ch items r s).1.length + s.length =
        r.length + (pushList ch items r s).2.length := by
  intro items
  induction items with
  | nil => intro r s; simp only [pushList]
  | cons i rest ih =>
    intro r s
    cases hir : r.contains i <;> cases hci : ch i <;>
      simp only [pushList, hir, hci, Bool.false_eq_true, if_false, if_true]
    case false.false => exact ih r s
    case false.true =>
      have h2 := ih (i :: r) (i :: s)
      simp only [List.length_cons] at h2
      omega
    case true.false => exact ih r s
    case true.true => exact ih r s

theorem pushList_stack_new (ch : Nat → Bool) (v : List Nat) :
    ∀ (items r s : List Nat), (∀ y ∈ v, y ∈ r) →
      ∀ y ∈ (pushList ch items r s).2, y ∈ s ∨ y ∉ v := by
  intro items
  induction items with
  | nil => intro r s hvr y hy; exact Or.inl hy
  | cons i rest ih =>
    intro r s hvr y hy
    cases hir : r.contains i <;> cases hci : ch i <;>
      simp only [pushList, hir, hci, Bool.false_eq_true, if_false, if_true] at hy
    case false.false => exact ih r s hvr y hy
    case false.true =>
      have hinr : i ∉ r := by
        intro hcon
        have hct : r.contains i = true := List.elem_iff.mpr hcon
        exact bool_tf hct hir
      have h2 := ih (i :: r) (i :: s)
        (fun z hz => List.mem_cons_of_mem i (hvr z hz)) y hy
      rcases h2 with h3 | h3
      · rcases List.mem_cons.mp h3 with rfl | h4
        · exact Or.inr (fun hcon => hinr (hvr y hcon))
        · exact Or.inl h4
      · exact Or.inr h3
    case true.false => exact ih r s hvr y hy
    case true.true => exact ih r s hvr y hy

theorem mem_nbrsIn {g : IRGraph} {x m : Nat} :
    m ∈ nbrsIn g x ↔ ∃ w, (m, x, w) ∈ g.edges := by
  constructor
  · intro h
    obtain ⟨e, he, hex⟩ := List.mem_map.mp h
    have hf := List.mem_filter.mp he
    refine ⟨e.2.2, ?_⟩
    have h21 : e.2.1 = x := by simpa using hf.2
    have h1 : e.1 = m := hex
    have hee : (m, x, e.2.2) = e := by rw [← h1, ← h21]
    rw [hee]
    exact hf.1
  · intro h
    obtain ⟨w, hw⟩ := h
    apply List.mem_map.mpr
    refine ⟨(m, x, w), ?_, rfl⟩
    apply List.mem_filter.mpr
    exact ⟨hw, by simp⟩

theorem mem_nbrsOut {g : IRGraph} {n m : Nat} :
    m ∈ nbrsOut g n ↔ ∃ w, (n, m, w) ∈ g.edges := by
  constructor
  · intro h
    obtain ⟨e, he, hex⟩ := List.mem_map.mp h
    have hf := List.mem_filter.mp he
    refine ⟨e.2.2, ?_⟩
    have h1 : e.1 = n := by simpa using hf.2
    have h21 : e.2.1 = m := hex
    have hee : (n, m, e.2.2) = e := by rw [← h1, ← h21]
    rw [hee]
    exact hf.1
  · intro h
    obtain ⟨w, hw⟩ := h
    apply List.mem_map.mpr
    refine ⟨(n, m, w), ?_, rfl⟩
    apply List.mem_filter.mpr
    exact ⟨hw, by simp⟩

theorem nodeReady_iff {g : IRGraph} {visited : List Nat} {x : Nat} :
    nodeReady g visited Direction.Incoming x = true ↔ ∀ m ∈ nbrsIn g x, m ∈ visited := by
  unfold nodeReady
  rw [List.all_eq_true]
  constructor
  · intro h m hm
    exact List.elem_iff.mp (h m hm)
  · intro h m hm
    exact List.elem_iff.mpr (h m hm)

theorem mem_sourcesOf_true {g : IRGraph} {x : Nat} :
    x ∈ sourcesOf g true ↔ containsNode g x = true ∧ nbrsIn g x = [] := by
  unfold sourcesOf
  rw [List.mem_filter]
  constructor
  · intro h
    exact ⟨mem_nodeIdentifiers.mp h.1, List.isEmpty_iff.mp h.2⟩
  · intro h
    exact ⟨mem_nodeIdentifiers.mpr h.1, List.isEmpty_iff.mpr h.2⟩

theorem removeNode_facts (g : IRGraph) (i : Nat) (hc : containsNode g i = true) :
    (removeNode g i).nodes.length = g.nodes.length ∧
    (∀ j, containsNode (removeNode g i) j = if j = i then false else containsNode g j) ∧
    (∀ e ∈ (removeNode g i).edges, e ∈ g.edges ∧ e.1 ≠ i ∧ e.2.1 ≠ i) ∧
    (∀ e ∈ g.edges, e.1 ≠ i → e.2.1 ≠ i → e ∈ (removeNode g i).edges) := by
  have hlt : i < g.nodes.length := contains_lt hc
  have hrm : removeNode g i =
      { nodes := g.nodes.set i none,
        free := i :: g.free,
        edges := g.edges.filter (fun e => !(e.1 == i || e.2.1 == i)) } := by
    unfold removeNode
    rw [if_pos hc]
  rw [hrm]
  refine ⟨List.length_set g.nodes i none, ?_, ?_, ?_⟩
  · intro j
    by_cases hj : j = i
    · rw [hj, if_pos rfl]
      show ((g.nodes.set i none).getD i none).isSome = false
      rw [List.getD_eq_getElem?_getD, List.getElem?_set_self (by simpa using hlt)]
      rfl
    · rw [if_neg hj]
      show ((g.nodes.set i none).getD j none).isSome = _
      rw [List.getD_eq_getElem?_getD, List.getElem?_set_ne (fun hij => hj hij.symm)]
      show (g.nodes[j]?.getD none).isSome = containsNode g j
      unfold containsNode
      rw [List.getD_eq_getElem?_getD]
  · intro e he
    have hf := List.mem_filter.mp he
    refine ⟨hf.1, ?_, ?_⟩ <;>
      · intro hx
        have := hf.2
        rw [hx] at this
        simp at this
  · intro e he h1 h2
    apply List.mem_filter.mpr
    refine ⟨he, ?_⟩
    simp [h1, h2]

theorem rmCb_apply (d : Nat → Bool) (c : Circuit) (n : Nat) :
    (rmCb d c n).apply c = some
      (⟨if d n then [IRTransform.RemoveNode (TransformNodeIndex.NodeIndex n)] else [],
        if d n then [none] else []⟩,
       if d n then c.remove_node n else c) := by
  cases hd : d n <;>
    simp [rmCb, hd, TransformList.apply, TransformList.new, applyGo, applyOne,
      materializeIndex]

/-- Invariant of the ready set and stack carried through the three push
loops of one traversal step. -/
structure PLInv (g0 : IRGraph) (c1 : Circuit) (v1 : List Nat) (r s : List Nat) : Prop where
  rN : r.Nodup
  sN : s.Nodup
  sr : ∀ y ∈ s, y ∈ r
  riff : ∀ y, y ∈ r ↔ y ∈ v1 ∨ y ∈ s
  rB : ∀ y ∈ r, containsNode g0 y = true
  sL : ∀ y ∈ s, containsNode c1.graph y = true
  sR : ∀ y ∈ s, ∀ m ∈ nbrsIn c1.graph y, m ∈ v1
  sD : ∀ y ∈ s, y ∉ v1

theorem PLInv_push (g0 : IRGraph) (c1 : Circuit) (v1 : List Nat) (ch : Nat → Bool)
    (items r s : List Nat) (hpl : PLInv g0 c1 v1 r s)
    (hib : ∀ y ∈ items, containsNode g0 y = true)
    (hil : ∀ y ∈ items, ch y = true → containsNode c1.graph y = true)
    (hir : ∀ y ∈ items, ch y = true → ∀ m ∈ nbrsIn c1.graph y, m ∈ v1) :
    PLInv g0 c1 v1 (pushList ch items r s).1 (pushList ch items r s).2 ∧
    (∀ y ∈ r, y ∈ (pushList ch items r s).1) ∧
    (∀ y ∈ s, y ∈ (pushList ch items r s).2) ∧
    (∀ x ∈ items, ch x = true → x ∈ (pushList ch items r s).1) ∧
    (pushList ch items r s).1.length + s.length =
      r.length + (pushList ch items r s).2.length := by
  have hvr : ∀ y ∈ v1, y ∈ r := fun y hy => (hpl.riff y).mpr (Or.inl hy)
  obtain ⟨hN1, hN2, hN3⟩ := pushList_nodup ch items r s hpl.rN hpl.sN hpl.sr
  refine ⟨⟨hN1, hN2, hN3, pushList_iff ch v1 items r s hpl.riff, ?_, ?_, ?_, ?_⟩,
    fun y hy => pushList_ready_mono ch items r s y hy,
    fun y hy => pushList_stack_mono ch items r s y hy,
    fun x hx hcx => pushList_cover ch items r s x hx hcx,
    pushList_len ch items r s⟩
  · intro y hy
    rcases pushList_ready_src ch items r s y hy with h | h
    · exact hpl.rB y h
    · exact hib y h.1
  · intro y hy
    rcases pushList_stack_src ch items r s y hy with h | h
    · exact hpl.sL y h
    · exact hil y h.1 h.2
  · intro y hy
    rcases pushList_stack_src ch items r s y hy with h | h
    · exact hpl.sR y h
    · exact hir y h.1 h.2
  · intro y hy
    rcases pushList_stack_new ch v1 items r s hvr y hy with h | h
    · exact hpl.sD y h
    · exact h

theorem travStep (g0 : IRGraph) (c c1 : Circuit) (ready visited rest : List Nat) (n : Nat)
    (hinv : TravInv g0 c ready visited (n :: rest))
    (hF1 : c1.graph.nodes.length = c.graph.nodes.length)
    (hF2 : ∀ j, j ≠ n → containsNode c1.graph j = containsNode c.graph j)
    (hF3 : ∀ e ∈ c1.graph.edges, e ∈ c.graph.edges)
    (hF4 : ∀ e ∈ c.graph.edges, e.1 ≠ n → e.2.1 ≠ n → e ∈ c1.graph.edges)
    (hOcc : ∀ e ∈ c1.graph.edges,
      containsNode c1.graph e.1 = true ∧ containsNode c1.graph e.2.1 = true) :
    TravInv g0 c1
      (stepLists true c1 (visited ++ [n])
        (neighborsDirected c.graph n (nextDirection true)) n ready rest).1
      (visited ++ [n])
      (stepLists true c1 (visited ++ [n])
        (neighborsDirected c.graph n (nextDirection true)) n ready rest).2 ∧
    (stepLists true c1 (visited ++ [n])
        (neighborsDirected c.graph n (nextDirection true)) n ready rest).1.length +
      rest.length =
      ready.length +
      (stepLists true c1 (visited ++ [n])
        (neighborsDirected c.graph n (nextDirection true)) n ready rest).2.length ∧
    (∀ y ∈ ready, y ∈ (stepLists true c1 (visited ++ [n])
        (neighborsDirected c.graph n (nextDirection true)) n ready rest).1) := by
  have hmemn : n ∈ n :: rest := List.mem_cons_self n rest
  have hnlive : containsNode c.graph n = true := hinv.sLive n hmemn
  have hnready : ∀ m ∈ nbrsIn c.graph n, m ∈ visited := hinv.sReady n hmemn
  have hnr : n ∈ ready := (hinv.rIff n).mpr (Or.inr hmemn)
  have hnvis : n ∉ visited := fun hv => hinv.disj n hv hmemn
  have hnrest : n ∉ rest := (List.nodup_cons.mp hinv.sNodup).1
  have hrestnd : rest.Nodup := (List.nodup_cons.mp hinv.sNodup).2
  have hsub1 : SubG c1.graph g0 := by
    refine ⟨hF1.trans hinv.sub.len, ?_, fun e he => hinv.sub.edge_sub e (hF3 e he),
      fun e he => hinv.sub.edge_lt e (hF3 e he), hOcc⟩
    intro i hi
    by_cases hin : i = n
    · rw [hin]
      exact hinv.sub.node_sub n hnlive
    · rw [hF2 i hin] at hi
      exact hinv.sub.node_sub i hi
  have hnbrWeak : ∀ x, ∀ m ∈ nbrsIn c1.graph x, m ∈ nbrsIn c.graph x := by
    intro x m hm
    obtain ⟨w, hw⟩ := mem_nbrsIn.mp hm
    exact mem_nbrsIn.mpr ⟨w, hF3 _ hw⟩
  have hPL0 : PLInv g0 c1 (visited ++ [n]) ready rest := by
    refine ⟨hinv.rNodup, hrestnd,
      fun y hy => (hinv.rIff y).mpr (Or.inr (List.mem_cons_of_mem n hy)), ?_,
      hinv.rBound, ?_, ?_, ?_⟩
    · intro y
      rw [hinv.rIff y]
      simp only [List.mem_append, List.mem_cons, List.mem_singleton,
        List.not_mem_nil, or_false]
      tauto
    · intro y hy
      have hyn : y ≠ n := fun h => hnrest (h ▸ hy)
      rw [hF2 y hyn]
      exact hinv.sLive y (List.mem_cons_of_mem n hy)
    · intro y hy m hm
      exact List.mem_append_left [n]
        (hinv.sReady y (List.mem_cons_of_mem n hy) m (hnbrWeak y m hm))
    · intro y hy hycon
      rcases List.mem_append.mp hycon with h | h
      · exact hinv.disj y h (List.mem_cons_of_mem n hy)
      · have hyn : y = n := by simpa using h
        exact hnrest (hyn ▸ hy)
  set v1 : List Nat := visited ++ [n] with hv1def
  set ch : Nat → Bool := nodeReady c1.graph v1 (prevDirection true) with hchdef
  set nn : List Nat := neighborsDirected c.graph n (nextDirection true) with hnndef
  set RS1 : List Nat × List Nat :=
    if containsNode c1.graph n then
      pushList ch (neighborsDirected c1.graph n (nextDirection true)) ready rest
    else (ready, rest) with hRS1def
  set RS2 : List Nat × List Nat := pushList ch nn RS1.1 RS1.2 with hRS2def
  set RS3 : List Nat × List Nat :=
    pushList (fun _ => true) (sourcesOf c1.graph true) RS2.1 RS2.2 with hRS3def
  have hSL : stepLists true c1 v1 nn n ready rest = RS3 := rfl
  rw [hSL]
  -- stage 1
  have hstage1 : PLInv g0 c1 v1 RS1.1 RS1.2 ∧ (∀ y ∈ ready, y ∈ RS1.1) ∧
      RS1.1.length + rest.length = ready.length + RS1.2.length := by
    by_cases hcn : containsNode c1.graph n = true
    · rw [hRS1def, if_pos hcn]
      have hout : ∀ y ∈ neighborsDirected c1.graph n (nextDirection true),
          containsNode c1.graph y = true := by
        intro y hy
        obtain ⟨w, hw⟩ := mem_nbrsOut.mp hy
        exact (hOcc _ hw).2
      obtain ⟨hP, hr, _, _, hlen⟩ := PLInv_push g0 c1 v1 ch
        (neighborsDirected c1.graph n (nextDirection true)) ready rest hPL0
        (fun y hy => hsub1.node_sub y (hout y hy))
        (fun y hy _ => hout y hy)
        (fun y _ hchk => nodeReady_iff.mp hchk)
      exact ⟨hP, hr, hlen⟩
    · rw [hRS1def, if_neg hcn]
      exact ⟨hPL0, fun y hy => hy, rfl⟩
  obtain ⟨hP1, hmono1, hlen1⟩ := hstage1
  -- stage 2: the pre-edit snapshot of the dependents of n
  have hsnapLive : ∀ y ∈ nn, containsNode c1.graph y = true := by
    intro y hy
    obtain ⟨w, hw⟩ := mem_nbrsOut.mp hy
    have hlt : n < y := hinv.sub.edge_lt _ hw
    have hyn : y ≠ n := by omega
    rw [hF2 y hyn]
    exact (hinv.sub.edge_occ _ hw).2
  obtain ⟨hP2, hmono2, _, hcover2, hlen2⟩ := PLInv_push g0 c1 v1 ch nn RS1.1 RS1.2 hP1
    (fun y hy => hsub1.node_sub y (hsnapLive y hy))
    (fun y hy _ => hsnapLive y hy)
    (fun y _ hchk => nodeReady_iff.mp hchk)
  -- stage 3: the re-scan for sources
  obtain ⟨hP3, hmono3, _, hcover3, hlen3⟩ := PLInv_push g0 c1 v1
    (fun _ => true) (sourcesOf c1.graph true) RS2.1 RS2.2 hP2
    (fun y hy => hsub1.node_sub y (mem_sourcesOf_true.mp hy).1)
    (fun y hy _ => (mem_sourcesOf_true.mp hy).1)
    (fun y hy _ => by
      intro m hm
      rw [(mem_sourcesOf_true.mp hy).2] at hm
      simp at hm)
  have hv1nd : v1.Nodup := by
    rw [hv1def, List.nodup_append]
    exact ⟨hinv.vNodup, List.nodup_singleton n, by
      intro a ha hb
      have hab : a = n := by simpa using hb
      exact hnvis (hab ▸ ha)⟩
  refine ⟨⟨hsub1, hP3.rN, hv1nd, hP3.sN, fun x hx hs => hP3.sD x hs hx, hP3.riff,
    hP3.rB, hP3.sL, hP3.sR, ?_, ?_⟩, ?_, ?_⟩
  · -- vOrder
    intro j x hj m hm
    rw [hv1def] at hj ⊢
    rcases Nat.lt_trichotomy j visited.length with hlt | heq | hgt
    · rw [List.getElem?_append_left hlt] at hj
      have hold := hinv.vOrder j x hj m (hnbrWeak x m hm)
      rw [List.take_append_of_le_length (by omega)]
      exact hold
    · rw [heq, List.getElem?_concat_length] at hj
      have hx : x = n := (Option.some.inj hj).symm
      rw [heq, List.take_left]
      exact hnready m (hx ▸ hnbrWeak x m hm)
    · rw [List.getElem?_eq_none (by simp; omega)] at hj
      exact Option.noConfusion hj
  · -- compl
    intro x hx hdeps
    by_cases hold : ∀ m ∈ nbrsIn c.graph x, m ∈ visited
    · have hcx : containsNode c.graph x = true := by
        by_cases hxn : x = n
        · rw [hxn]
          exact hnlive
        · rw [← hF2 x hxn]
          exact hx
      have hxr : x ∈ ready := hinv.compl x hcx hold
      exact hmono3 x (hmono2 x (hmono1 x hxr))
    · push_neg at hold
      obtain ⟨m, hmmem, hmnv⟩ := hold
      have hxn : x ≠ n := by
        intro hxe
        exact hmnv (hnready m (hxe ▸ hmmem))
      have hmn : m = n := by
        by_contra hmn
        obtain ⟨w, hw⟩ := mem_nbrsIn.mp hmmem
        have hsurv : m ∈ nbrsIn c1.graph x :=
          mem_nbrsIn.mpr ⟨w, hF4 _ hw hmn hxn⟩
        have hmv1 := hdeps m hsurv
        rw [hv1def] at hmv1
        rcases List.mem_append.mp hmv1 with h | h
        · exact hmnv h
        · exact hmn (by simpa using h)
      have hxout : x ∈ nn := by
        obtain ⟨w, hw⟩ := mem_nbrsIn.mp hmmem
        rw [hmn] at hw
        rw [hnndef]
        exact mem_nbrsOut.mpr ⟨w, hw⟩
      have hch : ch x = true := nodeReady_iff.mpr hdeps
      exact hmono3 x (hcover2 x hxout hch)
  · -- measure bookkeeping
    rw [← hRS2def] at hlen2
    rw [← hRS3def] at hlen3
    omega
  · -- ready only grows
    intro y hy
    exact hmono3 y (hmono2 y (hmono1 y hy))

theorem traverseGo_spec (g0 : IRGraph) (d : Nat → Bool) :
    ∀ (fuel : Nat) (c : Circuit) (ready visited stack : List Nat),
      TravInv g0 c ready visited stack →
      (nodeCount g0 - ready.length) + stack.length ≤ fuel →
      ∃ cf visf readyf,
        traverseGo (rmCb d) true fuel c ready visited stack = some (cf, visf) ∧
        (∃ ext, visf = visited ++ ext) ∧
        TravInv g0 cf readyf visf [] ∧
        ((∀ x, d x = false) → cf = c) := by
  intro fuel
  induction fuel with
  | zero =>
    intro c ready visited stack hinv hm
    cases stack with
    | nil => exact ⟨c, visited, ready, rfl, ⟨[], by simp⟩, hinv, fun _ => rfl⟩
    | cons a t =>
      exfalso
      simp only [List.length_cons] at hm
      omega
  | succ fuel ih =>
    intro c ready visited stack hinv hm
    cases stack with
    | nil => exact ⟨c, visited, ready, rfl, ⟨[], by simp⟩, hinv, fun _ => rfl⟩
    | cons n rest =>
      have hnlive : containsNode c.graph n = true :=
        hinv.sLive n (List.mem_cons_self n rest)
      have hstep : traverseGo (rmCb d) true (fuel + 1) c ready visited (n :: rest) =
          traverseGo (rmCb d) true fuel (if d n then c.remove_node n else c)
            (stepLists true (if d n then c.remove_node n else c) (visited ++ [n])
              (neighborsDirected c.graph n (nextDirection true)) n ready rest).1
            (visited ++ [n])
            (stepLists true (if d n then c.remove_node n else c) (visited ++ [n])
              (neighborsDirected c.graph n (nextDirection true)) n ready rest).2 := by
        show ((rmCb d c n).apply c).bind _ = _
        rw [rmCb_apply, Option.some_bind]
      have hF1 : (if d n then c.remove_node n else c).graph.nodes.length =
          c.graph.nodes.length := by
        cases hd : d n
        · simp
        · simp only [if_true]
          exact (removeNode_facts c.graph n hnlive).1
      have hF2 : ∀ j, j ≠ n → containsNode (if d n then c.remove_node n else c).graph j =
          containsNode c.graph j := by
        intro j hj
        cases hd : d n
        · simp
        · simp only [if_true]
          show containsNode (removeNode c.graph n) j = _
          rw [(removeNode_facts c.graph n hnlive).2.1 j, if_neg hj]
      have hF3 : ∀ e ∈ (if d n then c.remove_node n else c).graph.edges,
          e ∈ c.graph.edges := by
        cases hd : d n
        · intro e he
          simpa using he
        · intro e he
          simp only [if_true] at he
          exact ((removeNode_facts c.graph n hnlive).2.2.1 e he).1
      have hF4 : ∀ e ∈ c.graph.edges, e.1 ≠ n → e.2.1 ≠ n →
          e ∈ (if d n then c.remove_node n else c).graph.edges := by
        intro e he ha hb
        cases hd : d n
        · simpa using he
        · simp only [if_true]
          exact (removeNode_facts c.graph n hnlive).2.2.2 e he ha hb
      have hOcc : ∀ e ∈ (if d n then c.remove_node n else c).graph.edges,
          containsNode (if d n then c.remove_node n else c).graph e.1 = true ∧
          containsNode (if d n then c.remove_node n else c).graph e.2.1 = true := by
        cases hd : d n
        · intro e he
          simp only [Bool.false_eq_true, if_false] at he ⊢
          exact hinv.sub.edge_occ e he
        · intro e he
          simp only [if_true] at he ⊢
          obtain ⟨hec, ha, hb⟩ := (removeNode_facts c.graph n hnlive).2.2.1 e he
          constructor
          · show containsNode (removeNode c.graph n) e.1 = true
            rw [(removeNode_facts c.graph n hnlive).2.1 e.1, if_neg ha]
            exact (hinv.sub.edge_occ e hec).1
          · show containsNode (removeNode c.graph n) e.2.1 = true
            rw [(removeNode_facts c.graph n hnlive).2.1 e.2.1, if_neg hb]
            exact (hinv.sub.edge_occ e hec).2
      obtain ⟨hinv1, hlen, hmono⟩ :=
        travStep g0 c (if d n then c.remove_node n else c) ready visited rest n
          hinv hF1 hF2 hF3 hF4 hOcc
      set SL : List Nat × List Nat :=
        stepLists true (if d n then c.remove_node n else c) (visited ++ [n])
          (neighborsDirected c.graph n (nextDirection true)) n ready rest with hSLdef
      have hR3N : SL.1.length ≤ nodeCount g0 :=
        (List.subperm_of_subset hinv1.rNodup
          (fun y hy => mem_nodeIdentifiers.mpr (hinv1.rBound y hy))).length_le
      have hrleR : ready.length ≤ SL.1.length :=
        (List.subperm_of_subset hinv.rNodup (fun y hy => hmono y hy)).length_le
      have hmeas : (nodeCount g0 - SL.1.length) + SL.2.length ≤ fuel := by
        simp only [List.length_cons] at hm
        omega
      obtain ⟨cf, visf, readyf, heq, hextE, hfin, hconst⟩ :=
        ih (if d n then c.remove_node n else c) SL.1 (visited ++ [n]) SL.2 hinv1 hmeas
      obtain ⟨ext, hext⟩ := hextE
      refine ⟨cf, visf, readyf, ?_, ⟨n :: ext, ?_⟩, hfin, ?_⟩
      · rw [hstep]
        exact heq
      · rw [hext, List.append_assoc]
        rfl
      · intro hall
        have hc1 : (if d n then c.remove_node n else c) = c := by
          rw [hall n]
          rfl
        have hcf := hconst hall
        rw [hc1] at hcf
        exact hcf

theorem travInv_complete {g0 : IRGraph} {cf : Circuit} {readyf visf : List Nat}
    (hfin : TravInv g0 cf readyf visf []) :
    ∀ x, containsNode cf.graph x = true → x ∈ visf := by
  intro x
  induction x using Nat.strong_induction_on with
  | _ x ihx =>
    intro hx
    have hdeps : ∀ m ∈ nbrsIn cf.graph x, m ∈ visf := by
      intro m hm
      obtain ⟨w, hw⟩ := mem_nbrsIn.mp hm
      have hlt : m < x := hfin.sub.edge_lt _ hw
      have hocc : containsNode cf.graph m = true := (hfin.sub.edge_occ _ hw).1
      exact ihx m hlt hocc
    have hr := hfin.compl x hx hdeps
    rcases (hfin.rIff x).mp hr with h | h
    · exact h
    · simp at h

theorem mem_take_getElem {l : List Nat} {j m : Nat} (h : m ∈ l.take j) :
    ∃ i, i < j ∧ l[i]? = some m := by
  obtain ⟨i, hi, hig⟩ := List.getElem_of_mem h
  have hij : i < j := by
    have := hi
    rw [List.length_take] at this
    omega
  have hil : i < l.length := by
    have := hi
    rw [List.length_take] at this
    omega
  refine ⟨i, hij, ?_⟩
  rw [List.getElem?_eq_getElem hil, List.getElem_take' l hil hij]
  exact congrArg some hig

theorem travInv_precedes {g0 : IRGraph} {cf : Circuit} {readyf visf : List Nat}
    (hfin : TravInv g0 cf readyf visf []) :
    ∀ x, x ∈ visf → ∀ m ∈ nbrsIn cf.graph x, Precedes visf m x := by
  intro x hxv m hm
  obtain ⟨j, hj⟩ := List.mem_iff_getElem?.mp hxv
  have htake := hfin.vOrder j x hj m hm
  obtain ⟨i, hij, hi⟩ := mem_take_getElem htake
  exact ⟨i, j, hij, hi, hj⟩

theorem sourcesOf_sub_ids (g : IRGraph) :
    ∀ x ∈ sourcesOf g true, x ∈ nodeIdentifiers g := by
  intro x hx
  exact mem_nodeIdentifiers.mpr (mem_sourcesOf_true.mp hx).1

theorem travInv_init (c : Circuit) (hw : BuiltWf c.graph) :
    TravInv c.graph c (sourcesOf c.graph true) [] (sourcesOf c.graph true).reverse := by
  have hcontains : ∀ i, containsNode c.graph i = true ↔ i < c.graph.nodes.length := by
    intro i
    constructor
    · exact contains_lt
    · intro h
      show (c.graph.nodes.getD i none).isSome = true
      rw [List.getD_eq_getElem?_getD, List.getElem?_eq_getElem h]
      exact hw.2.1 _ (List.getElem_mem h)
  have hsnd : (sourcesOf c.graph true).Nodup :=
    List.Nodup.filter _ (List.Nodup.filter _ (List.nodup_range _))
  refine ⟨⟨rfl, fun i hi => hi, fun e he => he, fun e he => (hw.2.2 e he).1, ?_⟩,
    hsnd, List.nodup_nil, List.nodup_reverse.mpr hsnd, ?_, ?_, ?_, ?_, ?_, ?_, ?_⟩
  · intro e he
    have hb := hw.2.2 e he
    exact ⟨(hcontains e.1).mpr (by omega), (hcontains e.2.1).mpr (by omega)⟩
  · intro x hx
    simp at hx
  · intro x
    rw [List.mem_reverse]
    simp
  · intro x hx
    exact mem_nodeIdentifiers.mp (sourcesOf_sub_ids c.graph x hx)
  · intro x hx
    rw [List.mem_reverse] at hx
    exact (mem_sourcesOf_true.mp hx).1
  · intro x hx m hm
    rw [List.mem_reverse] at hx
    rw [(mem_sourcesOf_true.mp hx).2] at hm
    simp at hm
  · intro j x hj
    simp at hj
  · intro x hx hdeps
    apply mem_sourcesOf_true.mpr
    refine ⟨hx, ?_⟩
    rw [List.eq_nil_iff_forall_not_mem]
    intro m hm
    exact (List.not_mem_nil m) (hdeps m hm)

theorem updateEdge_inv {g g2 : IRGraph} {a b : Nat} {w : EdgeInfo}
    (h : updateEdge g a b w = some g2) :
    containsNode g a = true ∧ containsNode g b = true ∧
    g2.nodes = g.nodes ∧ g2.free = g.free ∧
    (∀ e ∈ g2.edges, (e.1 = a ∧ e.2.1 = b) ∨ e ∈ g.edges) := by
  cases hca : containsNode g a with
  | false =>
    exfalso
    unfold updateEdge at h
    rw [hca] at h
    simp at h
  | true =>
    cases hcb : containsNode g b with
    | false =>
      exfalso
      unfold updateEdge at h
      rw [hca, hcb] at h
      simp at h
    | true =>
      unfold updateEdge at h
      rw [hca, hcb] at h
      simp only [Bool.and_self, if_true] at h
      have hg2 := Option.some.inj h
      refine ⟨rfl, rfl, ?_, ?_, ?_⟩
      · rw [← hg2]
      · rw [← hg2]
      · rw [← hg2]
        show ∀ e ∈ (if hasEdge g a b then
            g.edges.map (fun e => if e.1 == a && e.2.1 == b then (a, b, w) else e)
          else (a, b, w) :: g.edges), (e.1 = a ∧ e.2.1 = b) ∨ e ∈ g.edges
        cases hhe : hasEdge g a b with
        | false =>
          simp only [Bool.false_eq_true, if_false]
          intro e he
          rcases List.mem_cons.mp he with heq | hin
          · left
            rw [heq]
            exact ⟨rfl, rfl⟩
          · right
            exact hin
        | true =>
          simp only [if_true]
          intro e he
          obtain ⟨e0, he0, heq⟩ := List.mem_map.mp he
          by_cases hc : (e0.1 == a && e0.2.1 == b) = true
          · rw [if_pos hc] at heq
            left
            rw [← heq]
            exact ⟨rfl, rfl⟩
          · rw [if_neg hc] at heq
            right
            rw [← heq]
            exact he0

theorem addNode_nil {g : IRGraph} (hf : g.free = []) (w : NodeInfo) :
    addNode g w = ({ g with nodes := g.nodes ++ [some w] }, g.nodes.length) := by
  unfold addNode
  rw [hf]

theorem builtWf_contains {g : IRGraph} (hw : ∀ s ∈ g.nodes, Option.isSome s = true)
    {i : Nat} (h : i < g.nodes.length) : containsNode g i = true := by
  show (g.nodes.getD i none).isSome = true
  rw [List.getD_eq_getElem?_getD, List.getElem?_eq_getElem h]
  exact hw _ (List.getElem_mem h)

theorem builtWf_append2 {c c2 : Circuit} {op : Operation} {x y h : Nat}
    (hwf : BuiltWf c.graph)
    (hx : containsNode c.graph x = true) (hy : containsNode c.graph y = true)
    (happ : Circuit.append_2_input_node c op x y = some (c2, h)) :
    BuiltWf c2.graph := by
  obtain ⟨hfree, hsome, hedge⟩ := hwf
  have hadd := addNode_nil hfree (⟨op⟩ : NodeInfo)
  simp only [Circuit.append_2_input_node, hadd] at happ
  cases hu1 : updateEdge { c.graph with nodes := c.graph.nodes ++ [some ⟨op⟩] } x
      c.graph.nodes.length EdgeInfo.LeftOperand with
  | none =>
    rw [hu1] at happ
    simp at happ
  | some ga =>
    rw [hu1, Option.some_bind] at happ
    cases hu2 : updateEdge ga y c.graph.nodes.length EdgeInfo.RightOperand with
    | none =>
      rw [hu2] at happ
      simp at happ
    | some gb =>
      rw [hu2, Option.map_some'] at happ
      have hpair := Option.some.inj happ
      have hc2 : (⟨c.scheme, gb⟩ : Circuit) = c2 := congrArg Prod.fst hpair
      obtain ⟨_, _, hn1, hf1, he1⟩ := updateEdge_inv hu1
      obtain ⟨_, _, hn2, hf2, he2⟩ := updateEdge_inv hu2
      rw [← hc2]
      have hxlt : x < c.graph.nodes.length := contains_lt hx
      have hylt : y < c.graph.nodes.length := contains_lt hy
      have hnodes : gb.nodes = c.graph.nodes ++ [some ⟨op⟩] := by
        rw [hn2, hn1]
      have hlen : gb.nodes.length = c.graph.nodes.length + 1 := by
        rw [hnodes, List.length_append, List.length_singleton]
      refine ⟨?_, ?_, ?_⟩
      · show gb.free = []
        rw [hf2, hf1]
        exact hfree
      · show ∀ s ∈ gb.nodes, Option.isSome s = true
        rw [hnodes]
        intro s hs
        rcases List.mem_append.mp hs with hs1 | hs2
        · exact hsome s hs1
        · rw [List.mem_singleton.mp hs2]
          rfl
      · show ∀ e ∈ gb.edges, e.1 < e.2.1 ∧ e.2.1 < gb.nodes.length
        intro e he
        rw [hlen]
        rcases he2 e he with ⟨ha, hb⟩ | hin2
        · rw [ha, hb]
          omega
        · rcases he1 e hin2 with ⟨ha, hb⟩ | hin1
          · rw [ha, hb]
            omega
          · have hb := hedge e hin1
            omega

theorem builtWf_append1 {c c2 : Circuit} {op : Operation} {x h : Nat}
    (hwf : BuiltWf c.graph) (hx : containsNode c.graph x = true)
    (happ : Circuit.append_1_input_node c op x = some (c2, h)) :
    BuiltWf c2.graph := by
  obtain ⟨hfree, hsome, hedge⟩ := hwf
  have hadd := addNode_nil hfree (⟨op⟩ : NodeInfo)
  simp only [Circuit.append_1_input_node, hadd] at happ
  cases hu1 : updateEdge { c.graph with nodes := c.graph.nodes ++ [some ⟨op⟩] } x
      c.graph.nodes.length EdgeInfo.UnaryOperand with
  | none =>
    rw [hu1] at happ
    simp at happ
  | some ga =>
    rw [hu1, Option.map_some'] at happ
    have hpair := Option.some.inj happ
    have hc2 : (⟨c.scheme, ga⟩ : Circuit) = c2 := congrArg Prod.fst hpair
    obtain ⟨_, _, hn1, hf1, he1⟩ := updateEdge_inv hu1
    rw [← hc2]
    have hxlt : x < c.graph.nodes.length := contains_lt hx
    have hnodes : ga.nodes = c.graph.nodes ++ [some ⟨op⟩] := hn1
    have hlen : ga.nodes.length = c.graph.nodes.length + 1 := by
      rw [hnodes, List.length_append, List.length_singleton]
    refine ⟨?_, ?_, ?_⟩
    · show ga.free = []
      rw [hf1]
      exact hfree
    · show ∀ s ∈ ga.nodes, Option.isSome s = true
      rw [hnodes]
      intro s hs
      rcases List.mem_append.mp hs with hs1 | hs2
      · exact hsome s hs1
      · rw [List.mem_singleton.mp hs2]
        rfl
    · show ∀ e ∈ ga.edges, e.1 < e.2.1 ∧ e.2.1 < ga.nodes.length
      intro e he
      rw [hlen]
      rcases he1 e he with ⟨ha, hb⟩ | hin1
      · rw [ha, hb]
        omega
      · have hb := hedge e hin1
        omega

theorem builtWf_append0 {c : Circuit} (op : Operation) (hwf : BuiltWf c.graph) :
    BuiltWf (c.append_0_input_node op).1.graph := by
  obtain ⟨hfree, hsome, hedge⟩ := hwf
  have hadd := addNode_nil hfree (⟨op⟩ : NodeInfo)
  show BuiltWf (Circuit.append_0_input_node c op).1.graph
  simp only [Circuit.append_0_input_node, hadd]
  refine ⟨hfree, ?_, ?_⟩
  · intro s hs
    rcases List.mem_append.mp hs with hs1 | hs2
    · exact hsome s hs1
    · rw [List.mem_singleton.mp hs2]
      rfl
  · intro e he
    have hb := hedge e he
    rw [List.length_append, List.length_singleton]
    omega

theorem built_wf : ∀ {c : Circuit}, Built c → BuiltWf c.graph := by
  intro c h
  induction h with
  | new s =>
    refine ⟨rfl, ?_, ?_⟩
    · intro t ht
      simp [Circuit.new] at ht
    · intro e he
      simp [Circuit.new] at he
  | add ca cb x y hh hb hx hy happ ih => exact builtWf_append2 ih hx hy happ
  | mul ca cb x y hh hb hx hy happ ih => exact builtWf_append2 ih hx hy happ
  | subB ca cb x y hh hb hx hy happ ih => exact builtWf_append2 ih hx hy happ
  | rotl ca cb x y hh hb hx hy happ ih => exact builtWf_append2 ih hx hy happ
  | rotr ca cb x y hh hb hx hy happ ih => exact builtWf_append2 ih hx hy happ
  | neg ca cb x hh hb hx happ ih => exact builtWf_append1 ih hx happ
  | outp ca cb x hh hb hx happ ih => exact builtWf_append1 ih hx happ
  | relin ca cb x hh hb hx happ ih => exact builtWf_append1 ih hx happ
  | inCt ca id hb ih => exact builtWf_append0 (Operation.InputCiphertext id) ih
  | inLit ca v hb ih => exact builtWf_append0 (Operation.Literal v) ih

/-- Claim C1: on every circuit built purely by the append family of
builders, forward_traverse with a callback that always returns an empty
TransformList leaves the circuit unchanged, invokes the callback once
per node of the graph (visf lists the callback invocations in order, so
Nodup plus the membership equivalence say every node is visited exactly
once), and never invokes the callback on a node before every one of its
Incoming-edge dependencies.  The fuel bound nodeCount is an embedding
artifact: it is the exact number of loop iterations the Rust while-let
loop performs. -/
theorem C1_forward_traverse_topo (c : Circuit) (hb : Built c) (fuel : Nat)
    (hfuel : nodeCount c.graph ≤ fuel) :
    ∃ cf visf,
      Circuit.forward_traverse c (fun _ _ => TransformList.new) fuel = some (cf, visf) ∧
      cf = c ∧ visf.Nodup ∧
      (∀ x, containsNode c.graph x = true ↔ x ∈ visf) ∧
      (∀ e ∈ c.graph.edges, Precedes visf e.1 e.2.1) := by
  have hw := built_wf hb
  have hinit := travInv_init c hw
  have hcb : Circuit.forward_traverse c (fun _ _ => TransformList.new) fuel =
      traverseGo (rmCb (fun _ => false)) true fuel c (sourcesOf c.graph true) []
        (sourcesOf c.graph true).reverse := rfl
  have hL : (sourcesOf c.graph true).length ≤ nodeCount c.graph :=
    List.length_filter_le _ _
  have hmeas : (nodeCount c.graph - (sourcesOf c.graph true).length) +
      (sourcesOf c.graph true).reverse.length ≤ fuel := by
    rw [List.length_reverse]
    omega
  obtain ⟨cf, visf, readyf, heq, _, hfin, hconst⟩ :=
    traverseGo_spec c.graph (fun _ => false) fuel c _ _ _ hinit hmeas
  have hcf : cf = c := hconst (fun _ => rfl)
  refine ⟨cf, visf, ?_, hcf, hfin.vNodup, ?_, ?_⟩
  · rw [hcb]
    exact heq
  · intro x
    constructor
    · intro hx
      apply travInv_complete hfin
      rw [hcf]
      exact hx
    · intro hx
      exact hfin.rBound x ((hfin.rIff x).mpr (Or.inl hx))
  · intro e he
    have hocc : containsNode c.graph e.2.1 = true :=
      builtWf_contains hw.2.1 (hw.2.2 e he).2
    have hxv : e.2.1 ∈ visf := by
      apply travInv_complete hfin
      rw [hcf]
      exact hocc
    have hm : e.1 ∈ nbrsIn cf.graph e.2.1 := by
      apply mem_nbrsIn.mpr
      refine ⟨e.2.2, ?_⟩
      rw [hcf]
      exact he
    exact travInv_precedes hfin e.2.1 hxv e.1 hm

theorem built_cW : Built cW := by
  have h0 : Built (Circuit.new SchemeType.Bfv) := Built.new _
  have h1 : Built ((Circuit.new SchemeType.Bfv).append_input_ciphertext 0).1 :=
    Built.inCt _ 0 h0
  have h2 : Built (((Circuit.new SchemeType.Bfv).append_input_ciphertext
      0).1.append_input_ciphertext 1).1 :=
    Built.inCt _ 1 h1
  exact Built.add _ cW 0 1 2 h2 (by decide) (by decide) (by decide)

/-- Witness for C1: the three-node witness circuit traversed with the
exact fuel bound. -/
theorem C1_forward_traverse_topo_witness :
    nodeCount cW.graph ≤ 3 ∧
    ∃ cf visf,
      Circuit.forward_traverse cW (fun _ _ => TransformList.new) 3 = some (cf, visf) ∧
      cf = cW ∧ visf.Nodup ∧
      (∀ x, containsNode cW.graph x = true ↔ x ∈ visf) ∧
      (∀ e ∈ cW.graph.edges, Precedes visf e.1 e.2.1) :=
  ⟨by decide, C1_forward_traverse_topo cW built_cW 3 (by decide)⟩

/-- Claim C5: during a forward traversal whose callback deletes the
currently-visited node (a RemoveNode transform of the current node,
issued whenever the decision function d says so), every original
dependent x of a deleted node n that remains in the final graph is still
visited exactly once, and only after all of its remaining live
Incoming-edge dependencies have been visited. -/
theorem C5_delete_current_node_traversal (c : Circuit) (hb : Built c)
    (d : Nat → Bool) (fuel : Nat) (hfuel : nodeCount c.graph ≤ fuel) :
    ∃ cf visf,
      Circuit.forward_traverse c (rmCb d) fuel = some (cf, visf) ∧
      ∀ n x, d n = true → x ∈ nbrsOut c.graph n → containsNode cf.graph x = true →
        visf.count x = 1 ∧ ∀ m ∈ nbrsIn cf.graph x, Precedes visf m x := by
  have hw := built_wf hb
  have hinit := travInv_init c hw
  have hcb : Circuit.forward_traverse c (rmCb d) fuel =
      traverseGo (rmCb d) true fuel c (sourcesOf c.graph true) []
        (sourcesOf c.graph true).reverse := rfl
  have hL : (sourcesOf c.graph true).length ≤ nodeCount c.graph :=
    List.length_filter_le _ _
  have hmeas : (nodeCount c.graph - (sourcesOf c.graph true).length) +
      (sourcesOf c.graph true).reverse.length ≤ fuel := by
    rw [List.length_reverse]
    omega
  obtain ⟨cf, visf, readyf, heq, _, hfin, _⟩ :=
    traverseGo_spec c.graph d fuel c _ _ _ hinit hmeas
  refine ⟨cf, visf, ?_, ?_⟩
  · rw [hcb]
    exact heq
  · intro n x _ _ hx
    have hxv : x ∈ visf := travInv_complete hfin x hx
    exact ⟨List.count_eq_one_of_mem hfin.vNodup hxv,
      fun m hm => travInv_precedes hfin x hxv m hm⟩

/-- Witness for C5: traversing the witness circuit while deleting node 0
(an input feeding the add node) at its visit. -/
theorem C5_delete_current_node_traversal_witness :
    nodeCount cW.graph ≤ 3 ∧
    ∃ cf visf,
      Circuit.forward_traverse cW (rmCb (fun n => n == 0)) 3 = some (cf, visf) ∧
      ∀ n x, (fun n => n == 0) n = true → x ∈ nbrsOut cW.graph n →
        containsNode cf.graph x = true →
        visf.count x = 1 ∧ ∀ m ∈ nbrsIn cf.graph x, Precedes visf m x :=
  ⟨by decide,
   C5_delete_current_node_traversal cW built_cW (fun n => n == 0) 3 (by decide)⟩

end Sunscreen
